import Mathlib

/-!
Verification of the Open-Assistant Tree Manager
(`backend/oasst_backend/tree_manager.py`).

The file is a shallow embedding of the tree manager's data model and of the
operations the claims concern: the tree-state machine (`_enter_state` and the
three `check_condition_for_*` guards), the acceptance evaluator
(`_calculate_acceptance`), the consensus application pass
(`update_message_ranks`), the task dispatcher (`next_task` together with
`_determine_task_availability_internal` and `_random_task_selection`), the
label-reply task builder, and the backlog activation loop
(`activate_backlog_tree`).

Conventions of the embedding:
* UUIDs are represented by `Nat`; language tags by `Nat`.
* Database rows are Lean structures holding the fields the modelled code
  reads; read-only queries appear as explicit inputs (lists of rows) or, for
  `query_incomplete_rankings` inside `_enter_state`, as an oracle parameter.
* Randomness (`random.random`, `random.choice`, `np.random.choice`) is an
  injected source: a stream `Nat → ℚ` with an index, or a picker function,
  constrained by hypotheses stating exactly what the library guarantees.
* Python exceptions are represented by `Option`/error values; a `try/except`
  block that swallows the exception becomes a total function returning the
  state the handler leaves behind.
* Floats are modelled by `ℚ` (the code only adds, subtracts and compares).
-/

namespace TreeManagerSpec

/-! ## State model

The `State` enum and `TERMINAL_STATES` constant live in
`oasst_backend.models.message_tree_state`, which is not part of the sources;
they are modelled from the spec (section 4.1): states
`INITIAL_PROMPT_REVIEW, GROWING, BACKLOG_RANKING, RANKING, READY_FOR_SCORING,
SCORING_FAILED, READY_FOR_EXPORT, ABORTED_LOW_GRADE, HALTED_BY_MODERATOR`,
the last three being terminal. -/

/-- Modelled from the spec: tree states of section 4.1 (the Python enum
`message_tree_state.State` is outside the provided sources). -/
inductive St
  | initial_prompt_review
  | growing
  | backlog_ranking
  | ranking
  | ready_for_scoring
  | scoring_failed
  | ready_for_export
  | aborted_low_grade
  | halted_by_moderator
deriving DecidableEq, Repr

/-- Modelled from the spec: `TERMINAL_STATES` of section 4.1. -/
def TERMINAL_STATES : List St :=
  [St.ready_for_export, St.aborted_low_grade, St.halted_by_moderator]

/-- The `(state, active)` fields of a `MessageTreeState` row. -/
structure Mts where
  state : St
  active : Bool
deriving DecidableEq, Repr

/-- Row-level effect of `TreeManager._enter_state` (tree_manager.py lines
633-642): set `active = False` when the target state is terminal, leave it
unchanged otherwise, and set `state` to the target. -/
def enterStateMts (mts : Mts) (s : St) : Mts :=
  { state := s, active := if s ∈ TERMINAL_STATES then false else mts.active }

/-- The invariant claimed for tree-state rows: a tree in a terminal state is
not active. -/
def MtsInv (mts : Mts) : Prop := mts.state ∈ TERMINAL_STATES → mts.active = false

instance : DecidablePred MtsInv := fun mts => by unfold MtsInv; infer_instance

/-! ## Acceptance evaluator -/

/-- Text-label names. Only `spam`, `lang_mismatch` and `quality` are read by
the modelled code; `other n` stands for the remaining label names. -/
inductive Lbl
  | spam
  | lang_mismatch
  | quality
  | other (n : Nat)
deriving DecidableEq, Repr

/-- A `TextLabels` row as read by `_calculate_acceptance`: the `labels`
mapping from label name to value (a label absent from the submission maps to
`none`). -/
structure LabelsRow where
  labels : Lbl → Option ℚ

/-- Arithmetic mean as computed by `np.mean` (claims only use it on
non-empty lists). -/
def mean (l : List ℚ) : ℚ := l.sum / l.length

/-- The list comprehension `[l.labels[spam] for l in labels]`: indexing the
mapping without a default raises `KeyError` on the first submission lacking
the key; modelled by `none`. -/
def collectSpam : List LabelsRow → Option (List ℚ)
  | [] => some []
  | l :: ls =>
    match l.labels Lbl.spam with
    | none => none
    | some v => (collectSpam ls).map (fun vs => v :: vs)

/-- `TreeManager._calculate_acceptance` (tree_manager.py lines 811-817):
`lang_mismatch` values default to 0 via `labels.get(...) or 0`, `spam` is
indexed without a default, and the score is `1 - (spam + lang_mismatch)`
over the two means. `none` models the `KeyError` escape. -/
def calculate_acceptance (labels : List LabelsRow) : Option ℚ :=
  let lang_mismatch := mean (labels.map (fun l => (l.labels Lbl.lang_mismatch).getD 0))
  match collectSpam labels with
  | none => none
  | some spams => some (1 - (mean spams + lang_mismatch))

/-! ## Task dispatcher

Rows are represented by the fields the dispatcher reads: a reply or ranking
row by its `role`, an extendible-parent row by its `parent_role`, a prompt
needing review only by its presence (a count), an extendible-tree row by its
`remaining_messages` value. -/

/-- Message roles. -/
inductive Role
  | prompter
  | assistant
deriving DecidableEq, Repr

/-- `protocol_schema.TaskRequestType`. -/
inductive TaskRequestType
  | random
  | initial_prompt
  | prompter_reply
  | assistant_reply
  | rank_prompter_replies
  | rank_assistant_replies
  | label_initial_prompt
  | label_assistant_reply
  | label_prompter_reply
deriving DecidableEq, Repr

/-- The internal `TaskType` enum (`NONE = -1`, then `RANKING = 0`,
`LABEL_REPLY = 1`, `REPLY = 2`, `LABEL_PROMPT = 3`, `PROMPT = 4`). -/
inductive TaskTy
  | noTask
  | rankingT
  | labelReplyT
  | replyT
  | labelPromptT
  | promptT
deriving DecidableEq, Repr

/-- The internal `TaskRole` enum. -/
inductive TRole
  | anyR
  | prompterR
  | assistantR
deriving DecidableEq, Repr

/-- Failure modes of `next_task`: `notAvailable` is the
`TASK_REQUESTED_TYPE_NOT_AVAILABLE` OasstError (HTTP 503); `unbound` models a
branch that falls through without binding the local `task` (a Python
`UnboundLocalError` / failed `assert`, not an OasstError). -/
inductive NTErr
  | notAvailable
  | unbound
deriving DecidableEq, Repr

/-- Dispatcher-relevant configuration. -/
structure DispatchCfg where
  max_active_trees : Nat
  rank_prompter_replies : Bool
deriving Repr

/-- Positional lookup (Python list indexing that is known to be in range,
`Option`-guarded here). -/
def nthOpt : List Nat → Nat → Option Nat
  | [], _ => none
  | x :: _, 0 => some x
  | _ :: xs, n + 1 => nthOpt xs n

/-- `TreeManager._determine_task_availability_internal` (tree_manager.py
lines 158-199): the per-kind availability counts; `random` is the sum over
all kinds. `initial_prompt` uses `max(0, max_active_trees - num_active_trees)`
which is truncated subtraction on `Nat`. -/
def availability (cfg : DispatchCfg) (numActiveTrees : Nat)
    (extendibleParents : List Role) (promptsNeedReview : Nat)
    (repliesNeedReview : List Role) (incompleteRankings : List Role) :
    TaskRequestType → Nat
  | TaskRequestType.initial_prompt => cfg.max_active_trees - numActiveTrees
  | TaskRequestType.prompter_reply =>
      (extendibleParents.filter (fun r => r = Role.assistant)).length
  | TaskRequestType.assistant_reply =>
      (extendibleParents.filter (fun r => r = Role.prompter)).length
  | TaskRequestType.label_initial_prompt => promptsNeedReview
  | TaskRequestType.label_assistant_reply =>
      (repliesNeedReview.filter (fun r => r = Role.assistant)).length
  | TaskRequestType.label_prompter_reply =>
      (repliesNeedReview.filter (fun r => r = Role.prompter)).length
  | TaskRequestType.rank_prompter_replies =>
      if cfg.rank_prompter_replies then
        (incompleteRankings.filter (fun r => r = Role.prompter)).length
      else 0
  | TaskRequestType.rank_assistant_replies =>
      (incompleteRankings.filter (fun r => r = Role.assistant)).length
  | TaskRequestType.random =>
      (cfg.max_active_trees - numActiveTrees) +
      (extendibleParents.filter (fun r => r = Role.assistant)).length +
      (extendibleParents.filter (fun r => r = Role.prompter)).length +
      promptsNeedReview +
      (repliesNeedReview.filter (fun r => r = Role.assistant)).length +
      (repliesNeedReview.filter (fun r => r = Role.prompter)).length +
      (if cfg.rank_prompter_replies then
        (incompleteRankings.filter (fun r => r = Role.prompter)).length
      else 0) +
      (incompleteRankings.filter (fun r => r = Role.assistant)).length

/-- The weight vector of `TreeManager._random_task_selection` (tree_manager.py
lines 112-156), indexed by `TaskType.value`: RANKING=10, LABEL_REPLY=5,
REPLY=2, LABEL_PROMPT=5, PROMPT=1, each zeroed when the corresponding count
is zero. -/
def taskWeights (numRankingTasks numRepliesNeedReview numPromptsNeedReview
    numMissingPrompts numMissingReplies : Nat) : List Nat :=
  [if 0 < numRankingTasks then 10 else 0,
   if 0 < numRepliesNeedReview then 5 else 0,
   if 0 < numMissingReplies then 2 else 0,
   if 0 < numPromptsNeedReview then 5 else 0,
   if 0 < numMissingPrompts then 1 else 0]

/-- Decoding of the index drawn by `np.random.choice` back to a `TaskType`. -/
def idxToTaskTy : Nat → TaskTy
  | 0 => TaskTy.rankingT
  | 1 => TaskTy.labelReplyT
  | 2 => TaskTy.replyT
  | 3 => TaskTy.labelPromptT
  | 4 => TaskTy.promptT
  | _ => TaskTy.noTask

/-- `TreeManager._random_task_selection`: when the weight sum is zero the
result stays `TaskType.NONE` (the float guard `weight_sum > 1e-8` on a sum
of integer weights is exactly positivity); otherwise `np.random.choice` draws
an index with probability proportional to its weight, modelled by the
injected picker `pick`. -/
def randomTaskSelection (pick : List Nat → Nat)
    (numRankingTasks numRepliesNeedReview numPromptsNeedReview
     numMissingPrompts numMissingReplies : Nat) : TaskTy :=
  let w := taskWeights numRankingTasks numRepliesNeedReview
      numPromptsNeedReview numMissingPrompts numMissingReplies
  if 0 < w.sum then idxToTaskTy (pick w) else TaskTy.noTask

/-- The validity guarantee of `np.random.choice(a=n, p=weights/sum)`: the
drawn index carries positive weight. -/
def PickValid (pick : List Nat → Nat) : Prop :=
  ∀ w : List Nat, 0 < w.sum → ∃ k, nthOpt w (pick w) = some k ∧ 0 < k

/-- The `task_type_role_map` dict of `next_task` (tree_manager.py lines
290-299). `random` never reaches the lookup. -/
def taskTypeRoleMap : TaskRequestType → TaskTy × TRole
  | TaskRequestType.initial_prompt => (TaskTy.promptT, TRole.anyR)
  | TaskRequestType.prompter_reply => (TaskTy.replyT, TRole.prompterR)
  | TaskRequestType.assistant_reply => (TaskTy.replyT, TRole.assistantR)
  | TaskRequestType.rank_prompter_replies => (TaskTy.rankingT, TRole.prompterR)
  | TaskRequestType.rank_assistant_replies => (TaskTy.rankingT, TRole.assistantR)
  | TaskRequestType.label_initial_prompt => (TaskTy.labelPromptT, TRole.anyR)
  | TaskRequestType.label_assistant_reply => (TaskTy.labelReplyT, TRole.assistantR)
  | TaskRequestType.label_prompter_reply => (TaskTy.labelReplyT, TRole.prompterR)
  | TaskRequestType.random => (TaskTy.noTask, TRole.anyR)

/-- Role filter applied inside the RANKING and LABEL_REPLY branches. -/
def filterByRole (rows : List Role) : TRole → List Role
  | TRole.anyR => rows
  | TRole.prompterR => rows.filter (fun r => r = Role.prompter)
  | TRole.assistantR => rows.filter (fun r => r = Role.assistant)

/-- Role filter applied inside the REPLY branch: a PROMPTER reply extends an
assistant parent and vice versa (tree_manager.py lines 433-436). -/
def filterParentsByRole (rows : List Role) : TRole → List Role
  | TRole.anyR => rows
  | TRole.prompterR => rows.filter (fun r => r = Role.assistant)
  | TRole.assistantR => rows.filter (fun r => r = Role.prompter)

/-- The `match task_type` block of `next_task` (tree_manager.py lines
307-519), reduced to whether each branch binds `task`: a branch whose inner
`if len(...) > 0` guard fails leaves `task` unbound (`NTErr.unbound`), the
LABEL_PROMPT branch asserts non-emptiness, the PROMPT branch always builds,
and `task = None` (the `case _` for `TaskType.NONE`) reaches the final
`TASK_REQUESTED_TYPE_NOT_AVAILABLE` raise. -/
def buildTask (tt : TaskTy) (role : TRole) (prompts : Nat)
    (replies extParents rankings : List Role) : Except NTErr TaskTy :=
  match tt with
  | TaskTy.rankingT =>
      if 0 < (filterByRole rankings role).length then Except.ok TaskTy.rankingT
      else Except.error NTErr.unbound
  | TaskTy.labelReplyT =>
      if 0 < (filterByRole replies role).length then Except.ok TaskTy.labelReplyT
      else Except.error NTErr.unbound
  | TaskTy.replyT =>
      if 0 < (filterParentsByRole extParents role).length then Except.ok TaskTy.replyT
      else Except.error NTErr.unbound
  | TaskTy.labelPromptT =>
      if 0 < prompts then Except.ok TaskTy.labelPromptT
      else Except.error NTErr.unbound
  | TaskTy.promptT => Except.ok TaskTy.promptT
  | TaskTy.noTask => Except.error NTErr.notAvailable

/-- `TreeManager.next_task` (tree_manager.py lines 231-523), dispatch
skeleton. Inputs are the materialised query results: `numActiveTrees`,
`prompts` (count of prompts needing review), `replies` (roles of replies
needing review), `extParents` (parent roles of extendible parents),
`sizes` (the `remaining_messages` of each extendible tree), `rankings0`
(roles of incomplete-ranking rows, before the `rank_prompter_replies`
feature filter). The result abstracts the constructed task to its kind. -/
def next_task (cfg : DispatchCfg) (pick : List Nat → Nat)
    (desired : TaskRequestType) (numActiveTrees prompts : Nat)
    (replies extParents rankings0 : List Role) (sizes : List Nat) :
    Except NTErr TaskTy :=
  let rankings :=
    if cfg.rank_prompter_replies then rankings0
    else rankings0.filter (fun r => r = Role.assistant)
  let numMissingReplies := sizes.sum
  if desired = TaskRequestType.random then
    let tt := randomTaskSelection pick rankings.length replies.length prompts
        (cfg.max_active_trees - numActiveTrees) numMissingReplies
    if tt = TaskTy.noTask then Except.error NTErr.notAvailable
    else buildTask tt TRole.anyR prompts replies extParents rankings
  else
    if availability cfg numActiveTrees extParents prompts replies rankings desired = 0 then
      Except.error NTErr.notAvailable
    else
      let tr := taskTypeRoleMap desired
      buildTask tr.1 tr.2 prompts replies extParents rankings

/-! ## Label-reply task builder -/

/-- `protocol_schema.LabelTaskMode`. -/
inductive LabelTaskMode
  | full
  | simple
deriving DecidableEq, Repr

/-- `protocol_schema.LabelTaskDisposition`. -/
inductive LabelTaskDisposition
  | quality
  | spam
deriving DecidableEq, Repr

/-- The configuration fields read by the LABEL_REPLY branch. -/
structure LabelCfg where
  p_full_labeling_review_reply_assistant : ℚ
  p_full_labeling_review_reply_prompter : ℚ
  labels_assistant_reply : List Lbl
  labels_prompter_reply : List Lbl
  mandatory_labels_assistant_reply : List Lbl
  mandatory_labels_prompter_reply : List Lbl
deriving DecidableEq

/-- Append a label unless present (`if x not in valid_labels:
valid_labels.append(x)`). -/
def addIfMissing (l : List Lbl) (x : Lbl) : List Lbl :=
  if x ∈ l then l else l ++ [x]

/-- The simple-mode label list: a copy of the mandatory labels plus
`lang_mismatch` and `quality` when missing. -/
def simpleLabels (mandatory : List Lbl) : List Lbl :=
  addIfMissing (addIfMissing mandatory Lbl.lang_mismatch) Lbl.quality

/-- The emitted shape of a label task: mode, disposition and valid labels. -/
structure LabelTaskShape where
  mode : LabelTaskMode
  disposition : LabelTaskDisposition
  valid_labels : List Lbl
deriving DecidableEq

/-- The body of the `TaskType.LABEL_REPLY` case of `next_task`
(tree_manager.py lines 351-424) for a chosen reply of role `role`, given the
draw `rand` of `random.random()`.  Note the annotated assignment
`self.cfg.p_full_labeling_review_reply_prompter: float = 0.1` executes: it
overwrites the configured prompter probability both for this decision and in
the returned configuration.  Simple mode additionally requires the request
to have been for a `random` task. -/
def labelReplyBranch (cfg : LabelCfg) (desired : TaskRequestType)
    (role : Role) (rand : ℚ) : LabelTaskShape × LabelCfg :=
  let cfg1 := { cfg with p_full_labeling_review_reply_prompter := 1 / 10 }
  match role with
  | Role.assistant =>
      if desired = TaskRequestType.random ∧
          cfg1.p_full_labeling_review_reply_assistant < rand then
        ({ mode := LabelTaskMode.simple, disposition := LabelTaskDisposition.spam,
           valid_labels := simpleLabels cfg1.mandatory_labels_assistant_reply }, cfg1)
      else
        ({ mode := LabelTaskMode.full, disposition := LabelTaskDisposition.quality,
           valid_labels := cfg1.labels_assistant_reply }, cfg1)
  | Role.prompter =>
      if desired = TaskRequestType.random ∧
          cfg1.p_full_labeling_review_reply_prompter < rand then
        ({ mode := LabelTaskMode.simple, disposition := LabelTaskDisposition.spam,
           valid_labels := simpleLabels cfg1.mandatory_labels_prompter_reply }, cfg1)
      else
        ({ mode := LabelTaskMode.full, disposition := LabelTaskDisposition.quality,
           valid_labels := cfg1.labels_prompter_reply }, cfg1)

/-- The mode predicted by claim C6 as stated: simple with probability
`1 - p_full_labeling_review_reply_{role}` of the configured value, for both
random and specific label-reply requests. -/
def claimedLabelReplyMode (cfg : LabelCfg) (_desired : TaskRequestType)
    (role : Role) (rand : ℚ) : LabelTaskMode :=
  let p := match role with
    | Role.assistant => cfg.p_full_labeling_review_reply_assistant
    | Role.prompter => cfg.p_full_labeling_review_reply_prompter
  if p < rand then LabelTaskMode.simple else LabelTaskMode.full

/-- The effective threshold the code compares against: the configured
assistant probability, but the in-method constant `0.1` for prompter. -/
def effectiveReplyThreshold (cfg : LabelCfg) : Role → ℚ
  | Role.assistant => cfg.p_full_labeling_review_reply_assistant
  | Role.prompter => 1 / 10

/-- The amended behaviour (claim C6 corrected): simple mode only for random
requests, prompter threshold overwritten to `0.1`, and the configuration is
mutated. -/
def amendedLabelReplySpec (cfg : LabelCfg) (desired : TaskRequestType)
    (role : Role) (rand : ℚ) : LabelTaskShape × LabelCfg :=
  let cfg1 := { cfg with p_full_labeling_review_reply_prompter := 1 / 10 }
  let simpleMode := desired = TaskRequestType.random ∧
      effectiveReplyThreshold cfg role < rand
  if simpleMode then
    ({ mode := LabelTaskMode.simple, disposition := LabelTaskDisposition.spam,
       valid_labels := simpleLabels (match role with
         | Role.assistant => cfg.mandatory_labels_assistant_reply
         | Role.prompter => cfg.mandatory_labels_prompter_reply) }, cfg1)
  else
    ({ mode := LabelTaskMode.full, disposition := LabelTaskDisposition.quality,
       valid_labels := (match role with
         | Role.assistant => cfg.labels_assistant_reply
         | Role.prompter => cfg.labels_prompter_reply) }, cfg1)

/-! ## Consensus application (`update_message_ranks`) and the condition checks

`ranked_pairs` lives in `oasst_shared.utils.ranking`, outside the provided
sources; it enters the embedding as an oracle parameter
`rp : List (List Nat) → Except Unit (List Nat)` (an `Except.error` models the
algorithm raising). The spec (section 4.3) guarantees its output is a total
order on the common candidate set; theorems that need this state it as a
hypothesis on `rp`. -/

/-- A message row as read by the consensus pass: identity, parent link and
the mutable `rank` column. -/
structure Msg where
  id : Nat
  parentId : Option Nat
  rank : Option Nat
deriving DecidableEq, Repr

/-- The structural part of a message (everything `update_message_ranks`
reads; it only ever writes `rank`). -/
def msgKey (m : Msg) : Nat × Option Nat := (m.id, m.parentId)

/-- One entry of the `rankings_by_message` dict: the parent message id and
the `ranked_message_ids` payload of each ranking reaction on it. -/
structure RankingGroup where
  parentId : Nat
  orderings : List (List Nat)
deriving DecidableEq, Repr

/-- `set.intersection(*map(set, ordered_ids_list))`: the common candidate
set; `set.intersection` with no arguments raises (`none`). -/
def commonSet : List (List Nat) → Option (Finset Nat)
  | [] => none
  | ids :: rest => some (rest.foldl (fun acc l => acc ∩ l.toFinset) ids.toFinset)

/-- The sibling-clearing pass `for m in siblings: m.rank = None`
(tree_manager.py lines 759-762), where the siblings of `consensus[0]` are
all messages with the same parent (fetched with `review_result=None,
deleted=None`). -/
def clearSiblings (pid : Option Nat) (msgs : List Msg) : List Msg :=
  msgs.map (fun m => if m.parentId = pid then { m with rank := none } else m)

/-- The rank-setting pass `for rank, message_id in enumerate(consensus)`
(tree_manager.py lines 767-774): each consensus element found among the
siblings receives its index as rank; ids not among the siblings are skipped
with a warning. -/
def setRanksFrom (pid : Option Nat) (i : Nat) (c : List Nat)
    (msgs : List Msg) : List Msg :=
  match c with
  | [] => msgs
  | x :: xs =>
      setRanksFrom pid (i + 1) xs
        (msgs.map (fun m =>
          if m.id = x ∧ m.parentId = pid then { m with rank := some i } else m))

/-- Index of the last occurrence of `x` in `c`, counting from `i`: the net
rank that the enumerate-loop writes, with `none` meaning the clearing pass's
`null` survives. -/
def lastIdxFrom (i : Nat) (c : List Nat) (x : Nat) : Option Nat :=
  match c with
  | [] => none
  | y :: ys =>
      match lastIdxFrom (i + 1) ys x with
      | some r => some r
      | none => if y = x then some i else none

/-- Net per-message effect of clearing then rank-setting for one parent. -/
def groupApply (pid : Option Nat) (c : List Nat) (m : Msg) : Msg :=
  if m.parentId = pid then { m with rank := lastIdxFrom 0 c m.id } else m

/-- The `for rankings in rankings_by_message.values()` loop in the `try`
block of `update_message_ranks` (tree_manager.py lines 738-775). The second
component is `false` when the Python loop raises (failed `assert`,
`ranked_pairs` raising, empty intersection argument, missing message); the
first component is the message table as the exception handler leaves it. -/
def updateRanksLoop (rp : List (List Nat) → Except Unit (List Nat)) :
    List RankingGroup → List Msg → List Msg × Bool
  | [], msgs => (msgs, true)
  | g :: rest, msgs =>
    match commonSet g.orderings with
    | none => (msgs, false)
    | some common =>
      if common.card < 2 then updateRanksLoop rp rest msgs
      else
        let filtered := g.orderings.map (fun ids => ids.filter (fun x => decide (x ∈ common)))
        if ¬ (filtered.all (fun ids => ids.length = common.card)) then (msgs, false)
        else
          match rp filtered with
          | Except.error _ => (msgs, false)
          | Except.ok consensus =>
            if consensus.length ≠ common.card then (msgs, false)
            else
              match consensus.head? with
              | none => (msgs, false)
              | some c0 =>
                match msgs.find? (fun m => m.id = c0) with
                | none => (msgs, false)
                | some cm =>
                    updateRanksLoop rp rest
                      (setRanksFrom cm.parentId 0 consensus (clearSiblings cm.parentId msgs))

/-- The consensus the loop computes for a single parent, `none` when the
parent is skipped (|common| < 2) or the computation would raise. -/
def consensusOf (rp : List (List Nat) → Except Unit (List Nat))
    (g : RankingGroup) : Option (List Nat) :=
  match commonSet g.orderings with
  | none => none
  | some common =>
    if common.card < 2 then none
    else
      let filtered := g.orderings.map (fun ids => ids.filter (fun x => decide (x ∈ common)))
      if ¬ (filtered.all (fun ids => ids.length = common.card)) then none
      else
        match rp filtered with
        | Except.error _ => none
        | Except.ok consensus =>
            if consensus.length = common.card then some consensus else none

/-- Net per-message effect of a successful full pass, assuming the claim's
well-formedness conditions (each group's payload ids are children of that
group's parent): groups act through `groupApply` at their own parent. -/
def planApply (rp : List (List Nat) → Except Unit (List Nat))
    (gs : List RankingGroup) (m : Msg) : Msg :=
  gs.foldl (fun x g =>
    match consensusOf rp g with
    | some c => groupApply (some g.parentId) c x
    | none => x) m

/-- Classification of one iteration of the consensus loop: `skip` is the
|common| < 2 `continue`, `err` any raising path before the sibling update,
`go c` a computed consensus `c`. -/
inductive StepRes
  | skip
  | err
  | go (c : List Nat)
deriving DecidableEq, Repr

/-- The branch taken by the consensus loop on one group, as a function of the
group and the consensus oracle alone. -/
def stepOf (rp : List (List Nat) → Except Unit (List Nat))
    (g : RankingGroup) : StepRes :=
  match commonSet g.orderings with
  | none => StepRes.err
  | some common =>
    if common.card < 2 then StepRes.skip
    else
      let filtered := g.orderings.map (fun ids => ids.filter (fun x => decide (x ∈ common)))
      if ¬ (filtered.all (fun ids => ids.length = common.card)) then StepRes.err
      else
        match rp filtered with
        | Except.error _ => StepRes.err
        | Except.ok consensus =>
            if consensus.length = common.card then StepRes.go consensus else StepRes.err

/-- The mutable state `update_message_ranks` works on: the tree-state row of
the tree and its message table. -/
structure ScoringState where
  mts : Mts
  msgs : List Msg
deriving DecidableEq, Repr

/-- `TreeManager.update_message_ranks` (tree_manager.py lines 724-783):
refuse unless the tree is in READY_FOR_SCORING or SCORING_FAILED; a
SCORING_FAILED retry is reactivated and reset to READY_FOR_SCORING; on an
exception inside the loop the handler moves the tree to SCORING_FAILED and
returns `false`, otherwise the tree enters READY_FOR_EXPORT and the call
returns `true`. -/
def update_message_ranks (rp : List (List Nat) → Except Unit (List Nat))
    (rankings : List RankingGroup) (s : ScoringState) : ScoringState × Bool :=
  if s.mts.state ≠ St.ready_for_scoring ∧ s.mts.state ≠ St.scoring_failed then
    (s, false)
  else
    let mts1 := if s.mts.state = St.scoring_failed
      then { state := St.ready_for_scoring, active := true }
      else s.mts
    let lr := updateRanksLoop rp rankings s.msgs
    if lr.2 then
      ({ mts := enterStateMts mts1 St.ready_for_export, msgs := lr.1 }, true)
    else
      ({ mts := enterStateMts mts1 St.scoring_failed, msgs := lr.1 }, false)

/-- The quorum loop of `check_condition_for_scoring_state`: every parent
with ≥ 2 reviewed children has at least `num_required_rankings` ranking
reactions. -/
def quorumOk (numRequired : Nat) (rankings : List RankingGroup) : Bool :=
  rankings.all (fun g => numRequired ≤ g.orderings.length)

/-- `TreeManager.check_condition_for_scoring_state` (tree_manager.py lines
697-722): SCORING_FAILED bypasses the active/state gate; otherwise the tree
must be active and in RANKING or READY_FOR_SCORING; on quorum the tree is
moved to READY_FOR_SCORING when needed and `update_message_ranks` runs, its
outcome not affecting the `true` return. -/
def check_condition_for_scoring_state
    (rp : List (List Nat) → Except Unit (List Nat)) (numRequired : Nat)
    (rankings : List RankingGroup) (s : ScoringState) : ScoringState × Bool :=
  if s.mts.state ≠ St.scoring_failed ∧
      (s.mts.active = false ∨
        (s.mts.state ≠ St.ranking ∧ s.mts.state ≠ St.ready_for_scoring)) then
    (s, false)
  else if ¬ (quorumOk numRequired rankings) then (s, false)
  else
    let s1 := if s.mts.state ≠ St.scoring_failed ∧ s.mts.state ≠ St.ready_for_scoring
      then { s with mts := enterStateMts s.mts St.ready_for_scoring } else s
    ((update_message_ranks rp rankings s1).1, true)

/-- `TreeManager.check_condition_for_growing_state` (tree_manager.py lines
663-678): the tree must be active in INITIAL_PROMPT_REVIEW and the root
reviewed (`rootReviewed` is the fetched `initial_prompt.review_result`). -/
def check_condition_for_growing_state (rootReviewed : Bool) (mts : Mts) :
    Mts × Bool :=
  if mts.active = false ∨ mts.state ≠ St.initial_prompt_review then (mts, false)
  else if rootReviewed = false then (mts, false)
  else (enterStateMts mts St.growing, true)

/-- `TreeManager.check_condition_for_ranking_state` (tree_manager.py lines
680-695): the tree must be active in GROWING with no remaining messages and
none awaiting review (`remaining`/`awaiting` are the live
`query_tree_size` results). -/
def check_condition_for_ranking_state (remaining awaiting : Nat) (mts : Mts) :
    Mts × Bool :=
  if mts.active = false ∨ mts.state ≠ St.growing then (mts, false)
  else if 0 < remaining ∨ 0 < awaiting then (mts, false)
  else (enterStateMts mts St.ranking, true)

/-! ## Backlog activation (`_enter_state` with its cascade)

`_enter_state` and `activate_backlog_tree` are mutually recursive: aborting
an empty backlog tree enters a terminal state, which can trigger further
activation.  The embedding makes the recursion total with an explicit fuel;
claim C10 is the statement that `2 * backlogCount + 1` fuel always
suffices. -/

/-- A tree-state row joined with its root message, as read by the backlog
cascade: `lang` is the root's language, `rootExists` whether
`fetch_message(message_tree_id, fail_if_missing=False)` finds it,
`rankableParents` the size of `query_tree_ranking_results` for the tree. -/
structure TreeRow where
  tid : Nat
  state : St
  active : Bool
  lang : Nat
  rootExists : Bool
  rankableParents : Nat
deriving DecidableEq, Repr

/-- In-place mutation of the row(s) with the given tree id. -/
def updState (db : List TreeRow) (tid : Nat) (f : TreeRow → TreeRow) :
    List TreeRow :=
  db.map (fun t => if t.tid = tid then f t else t)

/-- The row-level part of `_enter_state`: set the state, clearing `active`
when the target is terminal. -/
def applyEnter (db : List TreeRow) (tid : Nat) (s : St) : List TreeRow :=
  updState db tid (fun t =>
    { t with state := s, active := if s ∈ TERMINAL_STATES then false else t.active })

/-- The `limit(1)` backlog query of `activate_backlog_tree` (tree_manager.py
lines 788-795): a tree in BACKLOG_RANKING whose root message carries the
requested language (the inner join requires the root to exist). -/
def findBacklog (db : List TreeRow) (lang : Nat) : Option TreeRow :=
  db.find? (fun t =>
    t.state = St.backlog_ranking ∧ t.lang = lang ∧ t.rootExists = true)

/-- Number of BACKLOG_RANKING rows, the termination measure of the
activation loop. -/
def backlogCount (db : List TreeRow) : Nat :=
  db.countP (fun t => decide (t.state = St.backlog_ranking))

/-- Configuration read by the cascade. -/
structure BacklogCfg where
  p_activate_backlog_tree : ℚ
  min_active_rankings_per_lang : Nat
deriving Repr

mutual

/-- `TreeManager._enter_state` (tree_manager.py lines 633-656): apply the
row-level transition; when the target is terminal and the root exists and
the tree was active, draw `random.random()` and possibly activate a backlog
tree of the root's language, then top up if the live count of incomplete
rankings for that language (the `oracle`) is below
`min_active_rankings_per_lang`.  `rng`/`ix` is the injected random stream,
`fuel` bounds the recursion (`none` = fuel exhausted). -/
def enterStateFuel (fuel : Nat) (oracle : List TreeRow → Nat → Nat)
    (cfg : BacklogCfg) (db : List TreeRow) (tid : Nat) (s : St)
    (rng : Nat → ℚ) (ix : Nat) : Option (List TreeRow × Nat) :=
  match fuel with
  | 0 => none
  | Nat.succ f =>
    match db.find? (fun t => t.tid = tid) with
    | none => some (applyEnter db tid s, ix)
    | some row =>
      let db1 := applyEnter db tid s
      if s ∈ TERMINAL_STATES then
        if row.rootExists = true ∧ row.active = true then
          let after1 : Option (List TreeRow × Nat) :=
            if rng ix < cfg.p_activate_backlog_tree then
              (activateBacklogFuel f oracle cfg db1 row.lang rng (ix + 1)).map
                (fun r => (r.1, r.2.1))
            else some (db1, ix + 1)
          match after1 with
          | none => none
          | some (db2, ix2) =>
            if 0 < cfg.min_active_rankings_per_lang ∧
                oracle db2 row.lang < cfg.min_active_rankings_per_lang then
              (activateBacklogFuel f oracle cfg db2 row.lang rng ix2).map
                (fun r => (r.1, r.2.1))
            else some (db2, ix2)
        else some (db1, ix)
      else some (db1, ix)

/-- `TreeManager.activate_backlog_tree` (tree_manager.py lines 785-809): loop
over backlog trees of the language; one with no rankable parents is aborted
to ABORTED_LOW_GRADE and the loop continues, otherwise the tree is
reactivated and enters RANKING.  The third result component is the id of the
activated tree (`None` when the backlog is exhausted). -/
def activateBacklogFuel (fuel : Nat) (oracle : List TreeRow → Nat → Nat)
    (cfg : BacklogCfg) (db : List TreeRow) (lang : Nat)
    (rng : Nat → ℚ) (ix : Nat) : Option (List TreeRow × Nat × Option Nat) :=
  match fuel with
  | 0 => none
  | Nat.succ f =>
    match findBacklog db lang with
    | none => some (db, ix, none)
    | some t =>
      if t.rankableParents = 0 then
        match enterStateFuel f oracle cfg db t.tid St.aborted_low_grade rng ix with
        | none => none
        | some (db', ix') => activateBacklogFuel f oracle cfg db' lang rng ix'
      else
        let db1 := updState db t.tid (fun x => { x with active := true })
        (enterStateFuel f oracle cfg db1 t.tid St.ranking rng ix).map
          (fun r => (r.1, r.2, some t.tid))

end

/-! ## Auxiliary concrete instances used by witnesses -/

/-- A concrete, executable stand-in for the `ranked_pairs` oracle used in
witnesses: it returns the first ordering restricted to the candidates shared
by all orderings, deduplicated. It satisfies the total-order-on-common-set
contract the spec ascribes to `ranked_pairs` (section 4.3). -/
def rpWitness (l : List (List Nat)) : Except Unit (List Nat) :=
  match l with
  | [] => Except.error ()
  | ids :: rest =>
      Except.ok ((ids.filter (fun x => rest.all (fun ys => decide (x ∈ ys)))).dedup)

/-- The structural projection of a message table (ids and parent links);
`update_message_ranks` never changes it. -/
def structKeys (msgs : List Msg) : List (Nat × Option Nat) := msgs.map msgKey

/-- A concrete weighted picker for witnesses: the index of the first
positive weight (a draw `np.random.choice` could produce). -/
def pickFirstPos : List Nat → Nat
  | [] => 0
  | x :: xs => if 0 < x then 0 else pickFirstPos xs + 1

/-- A concrete label configuration exhibiting the C6 counterexample: the
configured prompter probability 9/10 differs from the in-method constant
1/10. -/
def labelCfgEx : LabelCfg where
  p_full_labeling_review_reply_assistant := 0
  p_full_labeling_review_reply_prompter := 9 / 10
  labels_assistant_reply := [Lbl.spam, Lbl.lang_mismatch, Lbl.quality, Lbl.other 0]
  labels_prompter_reply := [Lbl.spam, Lbl.lang_mismatch, Lbl.quality, Lbl.other 1]
  mandatory_labels_assistant_reply := [Lbl.spam]
  mandatory_labels_prompter_reply := [Lbl.spam]

/-! # Theorems

Helper lemmas first, then one theorem per claim (with witnesses and, for
C6, the counterexample). -/

/-! ## Acceptance evaluator: claims C5 and C9 -/

theorem collectSpam_eq_some (labels : List LabelsRow)
    (h : ∀ l ∈ labels, (l.labels Lbl.spam).isSome) :
    collectSpam labels = some (labels.map (fun l => (l.labels Lbl.spam).getD 0)) := by
  induction labels with
  | nil => rfl
  | cons l ls ih =>
    have hl := h l (List.mem_cons_self l ls)
    obtain ⟨v, hv⟩ := Option.isSome_iff_exists.mp hl
    have ihs := ih (fun x hx => h x (List.mem_cons_of_mem _ hx))
    simp [collectSpam, hv, ihs]

theorem collectSpam_eq_none (labels : List LabelsRow)
    (h : ∃ l ∈ labels, l.labels Lbl.spam = none) :
    collectSpam labels = none := by
  induction labels with
  | nil => simp at h
  | cons l ls ih =>
    rcases h with ⟨x, hx, hnone⟩
    rcases List.mem_cons.mp hx with rfl | hmem
    · simp [collectSpam, hnone]
    · cases hl : l.labels Lbl.spam with
      | none => simp [collectSpam, hl]
      | some v => simp [collectSpam, hl, ih ⟨x, hmem, hnone⟩]

/-- Claim C5: for every non-empty list of label submissions the acceptance
score returned by `calculate_acceptance` equals
`1 − mean(spam) − mean(lang_mismatch)`, a submission without a
`lang_mismatch` value contributing 0 to the `lang_mismatch` mean (the claim
presupposes the `spam` key present, cf. C9). -/
theorem claim_C5 (labels : List LabelsRow) (hne : labels ≠ [])
    (hspam : ∀ l ∈ labels, (l.labels Lbl.spam).isSome) :
    calculate_acceptance labels =
      some (1 - mean (labels.map (fun l => (l.labels Lbl.spam).getD 0))
              - mean (labels.map (fun l => (l.labels Lbl.lang_mismatch).getD 0))) := by
  unfold calculate_acceptance
  rw [collectSpam_eq_some labels hspam]
  have : ∀ a b : ℚ, 1 - (a + b) = 1 - a - b := fun a b => by ring
  simp [this]

/-- Witness for C5 at a concrete two-submission input. -/
theorem claim_C5_witness :
    calculate_acceptance
        [⟨fun l => match l with | Lbl.spam => some 0 | _ => none⟩,
         ⟨fun l => match l with
                   | Lbl.spam => some (1/2)
                   | Lbl.lang_mismatch => some (1/4)
                   | _ => none⟩] =
      some (5/8) := by
  have h := claim_C5
    [⟨fun l => match l with | Lbl.spam => some 0 | _ => none⟩,
     ⟨fun l => match l with
               | Lbl.spam => some (1/2)
               | Lbl.lang_mismatch => some (1/4)
               | _ => none⟩]
    (by simp) (by intro l hl; fin_cases hl <;> simp)
  rw [h]
  norm_num [mean]

/-- Claim C9: `calculate_acceptance` raises exactly when some submission
lacks the `spam` key (first two conjuncts), while a missing `lang_mismatch`
value never raises and is equivalent to an explicit 0 (third conjunct). -/
theorem claim_C9 : ∀ labels : List LabelsRow,
    ((∃ l ∈ labels, l.labels Lbl.spam = none) → calculate_acceptance labels = none) ∧
    ((∀ l ∈ labels, (l.labels Lbl.spam).isSome) →
      (calculate_acceptance labels).isSome) ∧
    calculate_acceptance (labels.map (fun l =>
        ⟨fun x => if x = Lbl.lang_mismatch
                  then some ((l.labels Lbl.lang_mismatch).getD 0)
                  else l.labels x⟩)) = calculate_acceptance labels := by
  intro labels
  refine ⟨fun h => ?_, fun h => ?_, ?_⟩
  · unfold calculate_acceptance
    rw [collectSpam_eq_none labels h]
  · unfold calculate_acceptance
    rw [collectSpam_eq_some labels h]
    simp
  · unfold calculate_acceptance
    have hmapped : ∀ ls : List LabelsRow,
        collectSpam (ls.map (fun l =>
          (⟨fun x => if x = Lbl.lang_mismatch
                     then some ((l.labels Lbl.lang_mismatch).getD 0)
                     else l.labels x⟩ : LabelsRow))) = collectSpam ls := by
      intro ls
      induction ls with
      | nil => rfl
      | cons l ls ih => simp [collectSpam, ih]
    rw [hmapped]
    cases h : collectSpam labels with
    | none => rfl
    | some vs =>
      simp only [List.map_map]
      have hfun : ((fun l : LabelsRow => (l.labels Lbl.lang_mismatch).getD 0) ∘ fun l =>
          (⟨fun x => if x = Lbl.lang_mismatch
                     then some ((l.labels Lbl.lang_mismatch).getD 0)
                     else l.labels x⟩ : LabelsRow)) =
          fun l : LabelsRow => (l.labels Lbl.lang_mismatch).getD 0 := by
        funext l
        simp [Function.comp]
      rw [hfun]

/-- Witness for C9: a submission missing `spam` raises; with `spam` present a
value is produced even when `lang_mismatch` is absent. -/
theorem claim_C9_witness :
    calculate_acceptance [⟨fun _ => none⟩] = none ∧
    (calculate_acceptance [⟨fun l => if l = Lbl.spam then some 0 else none⟩]).isSome := by
  constructor
  · exact (claim_C9 [⟨fun _ => none⟩]).1 ⟨_, List.mem_cons_self _ _, rfl⟩
  · exact (claim_C9 [⟨fun l => if l = Lbl.spam then some 0 else none⟩]).2.1
      (by intro l hl; fin_cases hl <;> simp)

/-! ## State machine: claim C2 -/

/-- Claim C2: entering a terminal state clears `active`, entering a
non-terminal state leaves `active` unchanged, and the invariant
`terminal → inactive` holds after `_enter_state` as well as after the
operations that set `active` directly before transitioning (the
SCORING_FAILED retry reset inside `update_message_ranks`, backlog
activation / scoring retry into RANKING, and the purge reactivation into
INITIAL_PROMPT_REVIEW). -/
theorem claim_C2 : ∀ (mts : Mts) (s : St),
    (s ∈ TERMINAL_STATES → (enterStateMts mts s).active = false) ∧
    (s ∉ TERMINAL_STATES → (enterStateMts mts s).active = mts.active) ∧
    MtsInv (enterStateMts mts s) ∧
    MtsInv { state := St.ready_for_scoring, active := true } ∧
    MtsInv (enterStateMts { mts with active := true } St.ranking) ∧
    MtsInv (enterStateMts { mts with active := true } St.initial_prompt_review) := by
  intro mts s
  refine ⟨fun h => ?_, fun h => ?_, fun h => ?_, fun h => ?_, fun h => ?_, fun h => ?_⟩
  · simp [enterStateMts, h]
  · simp [enterStateMts, h]
  · simp only [enterStateMts] at h ⊢
    simp_all
  · simp [TERMINAL_STATES] at h
  · simp [enterStateMts, TERMINAL_STATES] at h
  · simp [enterStateMts, TERMINAL_STATES] at h

/-- Witness for C2 at a concrete row and the terminal READY_FOR_EXPORT /
non-terminal GROWING targets. -/
theorem claim_C2_witness :
    (enterStateMts ⟨St.ranking, true⟩ St.ready_for_export).active = false ∧
    (enterStateMts ⟨St.ranking, true⟩ St.growing).active = true := by
  constructor
  · exact (claim_C2 ⟨St.ranking, true⟩ St.ready_for_export).1 (by decide)
  · exact (claim_C2 ⟨St.ranking, true⟩ St.growing).2.1 (by decide)

/-! ## Label-reply task builder: claim C6 (corrected) -/

/-- Counterexample to C6 as stated.  First pair: for a specific
`label_assistant_reply` request with threshold 0 and draw 1 the claim
predicts simple mode, the code emits full mode (the simple branch requires
`desired == random`).  Second pair: for a random prompter request with the
configured probability 9/10 and draw 1/2 the claim predicts full mode, the
code emits simple mode because the in-method assignment has overwritten the
prompter probability with 0.1.  Last conjunct: the assignment is not a
no-op, the returned configuration is mutated. -/
theorem claim_C6_counterexample :
    (labelReplyBranch labelCfgEx TaskRequestType.label_assistant_reply
        Role.assistant 1).1.mode = LabelTaskMode.full ∧
    claimedLabelReplyMode labelCfgEx TaskRequestType.label_assistant_reply
        Role.assistant 1 = LabelTaskMode.simple ∧
    (labelReplyBranch labelCfgEx TaskRequestType.random
        Role.prompter (1/2)).1.mode = LabelTaskMode.simple ∧
    claimedLabelReplyMode labelCfgEx TaskRequestType.random
        Role.prompter (1/2) = LabelTaskMode.full ∧
    (labelReplyBranch labelCfgEx TaskRequestType.random
        Role.prompter (1/2)).2.p_full_labeling_review_reply_prompter ≠
      labelCfgEx.p_full_labeling_review_reply_prompter := by
  refine ⟨?_, ?_, ?_, ?_, ?_⟩
  · simp [labelReplyBranch, labelCfgEx]
  · norm_num [claimedLabelReplyMode, labelCfgEx]
  · norm_num [labelReplyBranch, labelCfgEx]
  · norm_num [claimedLabelReplyMode, labelCfgEx]
  · norm_num [labelReplyBranch, labelCfgEx]

/-- Claim C6 as amended: the dispatched LABEL_REPLY task is in simple mode
(mandatory labels plus `lang_mismatch` and `quality`, disposition spam)
exactly when the request was for a random task and the draw exceeds the
effective threshold — the configured value for assistant replies but the
in-method constant 0.1 for prompter replies — and otherwise in full mode
with all valid labels and disposition quality; specific label-reply requests
therefore always receive full mode, and the configuration leaves the branch
with `p_full_labeling_review_reply_prompter` overwritten to 0.1. -/
theorem claim_C6 (cfg : LabelCfg) (desired : TaskRequestType) (role : Role)
    (rand : ℚ) :
    labelReplyBranch cfg desired role rand = amendedLabelReplySpec cfg desired role rand := by
  cases role <;> rfl

/-! ## Task dispatcher: claim C4 -/

theorem nthOpt_five (a b c d e i k : Nat)
    (h : nthOpt [a, b, c, d, e] i = some k) :
    (i = 0 ∧ k = a) ∨ (i = 1 ∧ k = b) ∨ (i = 2 ∧ k = c) ∨
    (i = 3 ∧ k = d) ∨ (i = 4 ∧ k = e) := by
  rcases i with _ | _ | _ | _ | _ | i <;>
    simp_all [nthOpt]

theorem role_filter_split (l : List Role) :
    (l.filter (fun r => decide (r = Role.prompter))).length +
      (l.filter (fun r => decide (r = Role.assistant))).length = l.length := by
  induction l with
  | nil => rfl
  | cons x xs ih =>
    cases x <;> simp [List.filter_cons] <;> omega

theorem sum_zero_iff_nil (sizes : List Nat) (hsz : ∀ s ∈ sizes, 0 < s) :
    sizes.sum = 0 ↔ sizes = [] := by
  induction sizes with
  | nil => simp
  | cons x xs ih =>
    have hx := hsz x (List.mem_cons_self x xs)
    simp [List.sum_cons]
    omega

theorem filter_assistant_idem (l : List Role) :
    (l.filter (fun r => decide (r = Role.assistant))).filter
        (fun r => decide (r = Role.assistant)) =
      l.filter (fun r => decide (r = Role.assistant)) := by
  apply List.filter_eq_self.mpr
  intro a ha
  exact (List.mem_filter.mp ha).2

/-- Bridge: the two role-restricted ranking availabilities sum to the length
of the feature-filtered incomplete-rankings list. -/
theorem rank_avail_split (cfg : DispatchCfg) (rankings0 : List Role) :
    ((if cfg.rank_prompter_replies then
        ((if cfg.rank_prompter_replies then rankings0
          else rankings0.filter (fun r => decide (r = Role.assistant))).filter
          (fun r => decide (r = Role.prompter))).length
      else 0) +
     ((if cfg.rank_prompter_replies then rankings0
       else rankings0.filter (fun r => decide (r = Role.assistant))).filter
       (fun r => decide (r = Role.assistant))).length) =
    (if cfg.rank_prompter_replies then rankings0
     else rankings0.filter (fun r => decide (r = Role.assistant))).length := by
  by_cases hf : cfg.rank_prompter_replies
  · simpa [hf] using role_filter_split rankings0
  · simp [hf, filter_assistant_idem]

theorem mem_of_filter_pos (l : List Role) (r : Role)
    (h : (l.filter (fun x => decide (x = r))).length ≠ 0) : r ∈ l := by
  have hne : l.filter (fun x => decide (x = r)) ≠ [] :=
    List.length_pos.mp (Nat.pos_of_ne_zero h)
  obtain ⟨x, hx⟩ := List.exists_mem_of_ne_nil _ hne
  have h2 := List.mem_filter.mp hx
  have h3 : x = r := by simpa using h2.2
  exact h3 ▸ h2.1

/-- The weighted draw of the random branch has no candidate exactly when
every availability is zero, given that each extendible-tree row has
positive `remaining_messages` and that extendible trees exist exactly when
extendible parents do (both facts hold of the SQL that materialises them). -/
theorem random_avail_iff (cfg : DispatchCfg) (numActiveTrees prompts : Nat)
    (replies extParents rankings0 : List Role) (sizes : List Nat)
    (hsz : ∀ s ∈ sizes, 0 < s) (hps : extParents = [] ↔ sizes = []) :
    (taskWeights
        (if cfg.rank_prompter_replies then rankings0
         else rankings0.filter (fun r => r = Role.assistant)).length
        replies.length prompts (cfg.max_active_trees - numActiveTrees)
        sizes.sum).sum = 0 ↔
    availability cfg numActiveTrees extParents prompts replies
        (if cfg.rank_prompter_replies then rankings0
         else rankings0.filter (fun r => r = Role.assistant))
        TaskRequestType.random = 0 := by
  have hsplit := rank_avail_split cfg rankings0
  have hrep := role_filter_split replies
  have hpar := role_filter_split extParents
  have hnil := sum_zero_iff_nil sizes hsz
  constructor
  · intro h
    simp only [taskWeights, List.sum_cons, List.sum_nil] at h
    have h1 : (if cfg.rank_prompter_replies then rankings0
        else rankings0.filter (fun r => r = Role.assistant)).length = 0 := by
      by_cases hc : 0 < (if cfg.rank_prompter_replies then rankings0
          else rankings0.filter (fun r => r = Role.assistant)).length
      · simp [hc] at h
      · omega
    have h2 : replies.length = 0 := by
      by_cases hc : 0 < replies.length
      · simp [hc] at h
      · omega
    have h3 : sizes.sum = 0 := by
      by_cases hc : 0 < sizes.sum
      · simp [hc] at h
      · omega
    have h4 : prompts = 0 := by
      by_cases hc : 0 < prompts
      · simp [hc] at h
      · omega
    have h5 : cfg.max_active_trees - numActiveTrees = 0 := by
      by_cases hc : 0 < cfg.max_active_trees - numActiveTrees
      · simp [hc] at h
      · omega
    have hextnil : extParents = [] := hps.mpr (hnil.mp h3)
    subst hextnil
    simp only [availability]
    simp only [List.filter_nil, List.length_nil] at hpar ⊢
    omega
  · intro h
    simp only [availability] at h
    have hext : extParents.length = 0 := by omega
    have hrk : (if cfg.rank_prompter_replies then rankings0
        else rankings0.filter (fun r => r = Role.assistant)).length = 0 := by omega
    have hrep0 : replies.length = 0 := by omega
    have hsz0 : sizes.sum = 0 := by
      have : extParents = [] := List.length_eq_zero.mp hext
      have : sizes = [] := hps.mp this
      simp [this]
    simp only [taskWeights, List.sum_cons, List.sum_nil]
    have : prompts = 0 := by omega
    have : cfg.max_active_trees - numActiveTrees = 0 := by omega
    simp_all

/-- Claim C4: `next_task` fails with `TASK_REQUESTED_TYPE_NOT_AVAILABLE`
(HTTP 503) exactly when the request cannot be satisfied — for `random`,
when every availability is zero; for a specific kind, when that kind's
availability is zero — and these are the only errors it raises (every other
outcome is a constructed task).  `hpick` is the `np.random.choice`
guarantee; `hsz`/`hps` record that each extendible-tree row has positive
`remaining_messages` and extendible trees exist exactly when extendible
parents do. -/
theorem claim_C4 (cfg : DispatchCfg) (pick : List Nat → Nat)
    (desired : TaskRequestType) (numActiveTrees prompts : Nat)
    (replies extParents rankings0 : List Role) (sizes : List Nat)
    (hpick : PickValid pick)
    (hsz : ∀ s ∈ sizes, 0 < s)
    (hps : extParents = [] ↔ sizes = []) :
    (next_task cfg pick desired numActiveTrees prompts replies extParents rankings0 sizes
        = Except.error NTErr.notAvailable ↔
      availability cfg numActiveTrees extParents prompts replies
        (if cfg.rank_prompter_replies then rankings0
         else rankings0.filter (fun r => r = Role.assistant)) desired = 0) ∧
    ∀ e, next_task cfg pick desired numActiveTrees prompts replies extParents rankings0 sizes
        = Except.error e → e = NTErr.notAvailable := by
  have hsplit := rank_avail_split cfg rankings0
  have hrep := role_filter_split replies
  have hpar := role_filter_split extParents
  by_cases hd : desired = TaskRequestType.random
  · subst hd
    have hiff := random_avail_iff cfg numActiveTrees prompts replies extParents
      rankings0 sizes hsz hps
    by_cases hw : (taskWeights
        (if cfg.rank_prompter_replies then rankings0
         else rankings0.filter (fun r => r = Role.assistant)).length
        replies.length prompts (cfg.max_active_trees - numActiveTrees)
        sizes.sum).sum = 0
    · constructor
      · rw [← hiff]
        simp [next_task, randomTaskSelection, hw, Nat.pos_iff_ne_zero]
      · intro e he
        simp [next_task, randomTaskSelection, hw, Nat.pos_iff_ne_zero] at he
        exact he.symm
    · -- positive weight sum: the draw lands on a kind whose branch builds
      obtain ⟨k, hk, hkpos⟩ := hpick _ (Nat.pos_of_ne_zero hw)
      have hbuilt : ∃ t, next_task cfg pick TaskRequestType.random numActiveTrees
          prompts replies extParents rankings0 sizes = Except.ok t := by
        rcases nthOpt_five _ _ _ _ _ _ _ hk with
          ⟨hi, hkv⟩ | ⟨hi, hkv⟩ | ⟨hi, hkv⟩ | ⟨hi, hkv⟩ | ⟨hi, hkv⟩
        · -- RANKING
          have hpos : 0 < (if cfg.rank_prompter_replies then rankings0
              else rankings0.filter (fun r => r = Role.assistant)).length := by
            by_contra hc
            simp [taskWeights, hc] at hkv
            omega
          refine ⟨TaskTy.rankingT, ?_⟩
          simp [next_task, randomTaskSelection, Nat.pos_of_ne_zero hw, hi,
            idxToTaskTy, buildTask, filterByRole, hpos]
        · -- LABEL_REPLY
          have hpos : 0 < replies.length := by
            by_contra hc
            simp [taskWeights, hc] at hkv
            omega
          refine ⟨TaskTy.labelReplyT, ?_⟩
          simp [next_task, randomTaskSelection, Nat.pos_of_ne_zero hw, hi,
            idxToTaskTy, buildTask, filterByRole, hpos]
        · -- REPLY
          have hpos : 0 < sizes.sum := by
            by_contra hc
            simp [taskWeights, hc] at hkv
            omega
          have hplen : 0 < extParents.length := by
            rcases Nat.eq_zero_or_pos extParents.length with hz | hp
            · have : sizes = [] := hps.mp (List.length_eq_zero.mp hz)
              simp [this] at hpos
            · exact hp
          refine ⟨TaskTy.replyT, ?_⟩
          simp [next_task, randomTaskSelection, Nat.pos_of_ne_zero hw, hi,
            idxToTaskTy, buildTask, filterParentsByRole, hplen]
        · -- LABEL_PROMPT
          have hpos : 0 < prompts := by
            by_contra hc
            simp [taskWeights, hc] at hkv
            omega
          refine ⟨TaskTy.labelPromptT, ?_⟩
          simp [next_task, randomTaskSelection, Nat.pos_of_ne_zero hw, hi,
            idxToTaskTy, buildTask, hpos]
        · -- PROMPT
          refine ⟨TaskTy.promptT, ?_⟩
          simp [next_task, randomTaskSelection, Nat.pos_of_ne_zero hw, hi,
            idxToTaskTy, buildTask]
      obtain ⟨t, ht⟩ := hbuilt
      constructor
      · rw [ht, ← hiff]
        constructor
        · intro hcon; cases hcon
        · intro hcon; exact absurd hcon hw
      · intro e he
        rw [ht] at he
        cases he
  · -- specific request
    have havd : availability cfg numActiveTrees extParents prompts replies
        (if cfg.rank_prompter_replies then rankings0
         else rankings0.filter (fun r => r = Role.assistant)) desired =
        availability cfg numActiveTrees extParents prompts replies
        (if cfg.rank_prompter_replies then rankings0
         else rankings0.filter (fun r => r = Role.assistant)) desired := rfl
    by_cases hz : availability cfg numActiveTrees extParents prompts replies
        (if cfg.rank_prompter_replies then rankings0
         else rankings0.filter (fun r => r = Role.assistant)) desired = 0
    · constructor
      · simp [next_task, hd, hz]
      · intro e he
        simp [next_task, hd, hz] at he
        exact he.symm
    · have hbuilt : next_task cfg pick desired numActiveTrees prompts replies
          extParents rankings0 sizes =
          Except.ok (taskTypeRoleMap desired).1 := by
        cases desired with
        | random => exact absurd rfl hd
        | initial_prompt =>
          simp [next_task, hd, hz, taskTypeRoleMap, buildTask]
        | prompter_reply =>
          simp only [availability] at hz
          simp [next_task, hd, availability, hz, taskTypeRoleMap, buildTask,
            filterParentsByRole, Nat.pos_of_ne_zero hz,
            mem_of_filter_pos _ _ hz]
        | assistant_reply =>
          simp only [availability] at hz
          simp [next_task, hd, availability, hz, taskTypeRoleMap, buildTask,
            filterParentsByRole, Nat.pos_of_ne_zero hz,
            mem_of_filter_pos _ _ hz]
        | rank_prompter_replies =>
          simp only [availability] at hz
          by_cases hf : cfg.rank_prompter_replies
          · simp only [hf, if_true] at hz ⊢
            simp [next_task, hd, availability, hf, taskTypeRoleMap, buildTask,
              filterByRole, Nat.pos_of_ne_zero hz,
              mem_of_filter_pos _ _ hz]
          · simp [hf] at hz
        | rank_assistant_replies =>
          simp only [availability] at hz
          simp [next_task, hd, availability, hz, taskTypeRoleMap, buildTask,
            filterByRole, Nat.pos_of_ne_zero hz,
            mem_of_filter_pos _ _ hz]
        | label_initial_prompt =>
          simp only [availability] at hz
          simp [next_task, hd, availability, hz, taskTypeRoleMap, buildTask,
            Nat.pos_of_ne_zero hz]
        | label_assistant_reply =>
          simp only [availability] at hz
          simp [next_task, hd, availability, hz, taskTypeRoleMap, buildTask,
            filterByRole, Nat.pos_of_ne_zero hz,
            mem_of_filter_pos _ _ hz]
        | label_prompter_reply =>
          simp only [availability] at hz
          simp [next_task, hd, availability, hz, taskTypeRoleMap, buildTask,
            filterByRole, Nat.pos_of_ne_zero hz,
            mem_of_filter_pos _ _ hz]
      rw [hbuilt]
      constructor
      · constructor
        · intro hcon; cases hcon
        · intro hcon; exact absurd hcon hz
      · intro e he; cases he

theorem pickFirstPos_valid : PickValid pickFirstPos := by
  intro w hw
  induction w with
  | nil => simp at hw
  | cons x xs ih =>
    by_cases hx : 0 < x
    · exact ⟨x, by simp [pickFirstPos, hx, nthOpt], hx⟩
    · have hxs : 0 < xs.sum := by
        simp [List.sum_cons] at hw
        omega
      obtain ⟨k, hk, hkpos⟩ := ih hxs
      exact ⟨k, by simp [pickFirstPos, hx, nthOpt, hk], hkpos⟩

/-- Witness for C4: with one assistant incomplete ranking available and a
specific `rank_assistant_replies` request, no error is raised; with the
empty database and a `random` request, the 503 error is raised. -/
theorem claim_C4_witness :
    (next_task ⟨0, false⟩ pickFirstPos TaskRequestType.rank_assistant_replies
        0 0 [] [] [Role.assistant] [] ≠ Except.error NTErr.notAvailable) ∧
    next_task ⟨0, false⟩ pickFirstPos TaskRequestType.random
        0 0 [] [] [] [] = Except.error NTErr.notAvailable := by
  have h1 := claim_C4 ⟨0, false⟩ pickFirstPos TaskRequestType.rank_assistant_replies
    0 0 [] [] [Role.assistant] [] pickFirstPos_valid (by simp) (by simp)
  have h2 := claim_C4 ⟨0, false⟩ pickFirstPos TaskRequestType.random
    0 0 [] [] [] [] pickFirstPos_valid (by simp) (by simp)
  constructor
  · intro hcon
    have := h1.1.mp hcon
    revert this
    decide
  · exact h2.1.mpr (by decide)

/-! ## Consensus pass: structural lemmas -/

theorem lastIdxFrom_not_mem (c : List Nat) (x : Nat) (hx : x ∉ c) :
    ∀ i, lastIdxFrom i c x = none := by
  induction c with
  | nil => intro i; rfl
  | cons y ys ih =>
    intro i
    have hy : y ≠ x := fun h => hx (h ▸ List.mem_cons_self y ys)
    have hys : x ∉ ys := fun h => hx (List.mem_cons_of_mem y h)
    simp [lastIdxFrom, ih hys, hy]

theorem nthOpt_lt (c : List Nat) (j : Nat) (h : j < c.length) :
    ∃ y, nthOpt c j = some y := by
  induction c generalizing j with
  | nil => simp at h
  | cons x xs ih =>
    cases j with
    | zero => exact ⟨x, rfl⟩
    | succ j =>
      exact ih j (by simpa using Nat.lt_of_succ_lt_succ h)

theorem nthOpt_mem (c : List Nat) (j y : Nat) (h : nthOpt c j = some y) :
    y ∈ c := by
  induction c generalizing j with
  | nil => simp [nthOpt] at h
  | cons x xs ih =>
    cases j with
    | zero =>
      simp [nthOpt] at h
      exact h ▸ List.mem_cons_self x xs
    | succ j => exact List.mem_cons_of_mem x (ih j h)

theorem lastIdxFrom_spec (c : List Nat) (x : Nat) :
    ∀ i r, lastIdxFrom i c x = some r →
      i ≤ r ∧ r - i < c.length ∧ nthOpt c (r - i) = some x := by
  induction c with
  | nil => intro i r h; simp [lastIdxFrom] at h
  | cons y ys ih =>
    intro i r h
    simp only [lastIdxFrom] at h
    cases hys : lastIdxFrom (i + 1) ys x with
    | some r' =>
      rw [hys] at h
      cases h
      obtain ⟨h1, h2, h3⟩ := ih (i + 1) r hys
      refine ⟨by omega, by simp [List.length_cons]; omega, ?_⟩
      have : r - i = (r - (i + 1)) + 1 := by omega
      rw [this]
      exact h3
    | none =>
      rw [hys] at h
      by_cases hyx : y = x
      · simp [hyx] at h
        subst h
        refine ⟨Nat.le_refl i, by simp, ?_⟩
        simp [Nat.sub_self, nthOpt, hyx]
      · simp [hyx] at h

theorem lastIdxFrom_of_nth (c : List Nat) (x : Nat) (hnd : c.Nodup) :
    ∀ i j, nthOpt c j = some x → lastIdxFrom i c x = some (i + j) := by
  induction c with
  | nil => intro i j h; simp [nthOpt] at h
  | cons y ys ih =>
    intro i j h
    rcases List.nodup_cons.mp hnd with ⟨hy, hys⟩
    cases j with
    | zero =>
      simp [nthOpt] at h
      subst h
      have : lastIdxFrom (i + 1) ys y = none := lastIdxFrom_not_mem ys y hy (i + 1)
      simp [lastIdxFrom, this]
    | succ j =>
      have hx : x ∈ ys := nthOpt_mem ys j x h
      have hyx : y ≠ x := fun hc => hy (hc ▸ hx)
      have := ih hys (i + 1) j h
      simp [lastIdxFrom, this]
      omega

theorem setRanksFrom_map (pid : Option Nat) (c : List Nat) :
    ∀ (i : Nat) (msgs : List Msg),
      setRanksFrom pid i c msgs =
        msgs.map (fun m =>
          if m.parentId = pid then
            { m with rank := match lastIdxFrom i c m.id with
                             | some r => some r
                             | none => m.rank }
          else m) := by
  induction c with
  | nil =>
    intro i msgs
    simp [setRanksFrom, lastIdxFrom]
  | cons x xs ih =>
    intro i msgs
    simp only [setRanksFrom]
    rw [ih (i + 1)]
    rw [List.map_map]
    apply List.map_congr_left
    intro m _
    simp only [Function.comp]
    by_cases hp : m.parentId = pid
    · by_cases hx : m.id = x
      · simp only [hx, hp, and_self, if_true, if_pos]
        cases hxs : lastIdxFrom (i + 1) xs x with
        | some r => simp [lastIdxFrom, hxs, hx, hp]
        | none => simp [lastIdxFrom, hxs, hx, hp]
      · have hxm : ¬ (x = m.id) := fun h => hx h.symm
        simp only [hx, false_and, if_neg, if_pos hp, not_false_iff]
        cases hxs : lastIdxFrom (i + 1) xs m.id with
        | some r => simp [lastIdxFrom, hxs, hp, hxm]
        | none => simp [lastIdxFrom, hxs, hp, hxm]
    · simp [hp]

theorem loop_body_eq (pid : Option Nat) (c : List Nat) (msgs : List Msg) :
    setRanksFrom pid 0 c (clearSiblings pid msgs) =
      msgs.map (groupApply pid c) := by
  rw [setRanksFrom_map]
  unfold clearSiblings
  rw [List.map_map]
  apply List.map_congr_left
  intro m _
  simp only [Function.comp]
  by_cases hp : m.parentId = pid
  · simp only [hp, if_true, if_pos, groupApply]
    cases hc : lastIdxFrom 0 c m.id with
    | some r => simp [hc]
    | none => simp [hc]
  · simp [hp, groupApply]

theorem groupApply_key (pid : Option Nat) (c : List Nat) (m : Msg) :
    (groupApply pid c m).id = m.id ∧ (groupApply pid c m).parentId = m.parentId := by
  unfold groupApply
  by_cases hp : m.parentId = pid <;> simp [hp]

theorem structKeys_map_groupApply (pid : Option Nat) (c : List Nat)
    (msgs : List Msg) :
    structKeys (msgs.map (groupApply pid c)) = structKeys msgs := by
  unfold structKeys
  rw [List.map_map]
  apply List.map_congr_left
  intro m _
  obtain ⟨h1, h2⟩ := groupApply_key pid c m
  simp [Function.comp, msgKey, h1, h2]

/-- The cons-equation of the consensus loop, phrased through `stepOf` and the
per-group net effect `groupApply`. -/
theorem loop_cons (rp : List (List Nat) → Except Unit (List Nat))
    (g : RankingGroup) (rest : List RankingGroup) (msgs : List Msg) :
    updateRanksLoop rp (g :: rest) msgs =
      match stepOf rp g with
      | StepRes.skip => updateRanksLoop rp rest msgs
      | StepRes.err => (msgs, false)
      | StepRes.go c =>
        match c.head? with
        | none => (msgs, false)
        | some c0 =>
          match msgs.find? (fun m => m.id = c0) with
          | none => (msgs, false)
          | some cm => updateRanksLoop rp rest (msgs.map (groupApply cm.parentId c)) := by
  cases hc : commonSet g.orderings with
  | none => simp [updateRanksLoop, stepOf, hc]
  | some common =>
    by_cases h2 : common.card < 2
    · simp [updateRanksLoop, stepOf, hc, h2]
    · by_cases h3 : ((g.orderings.map (fun ids =>
          ids.filter (fun x => decide (x ∈ common)))).all
          (fun ids => ids.length = common.card)) = true
      · cases hrp : rp (g.orderings.map (fun ids =>
            ids.filter (fun x => decide (x ∈ common)))) with
        | error e => simp [updateRanksLoop, stepOf, hc, h2, h3, hrp]
        | ok consensus =>
          by_cases h4 : consensus.length = common.card
          · cases hh : consensus.head? with
            | none => simp [updateRanksLoop, stepOf, hc, h2, h3, hrp, h4, hh]
            | some c0 =>
              cases hf : msgs.find? (fun m => m.id = c0) with
              | none => simp [updateRanksLoop, stepOf, hc, h2, h3, hrp, h4, hh, hf]
              | some cm =>
                simp [updateRanksLoop, stepOf, hc, h2, h3, hrp, h4, hh, hf,
                  loop_body_eq]
          · simp [updateRanksLoop, stepOf, hc, h2, h3, hrp, h4]
      · simp [updateRanksLoop, stepOf, hc, h2, h3]

/-- The consensus loop only writes `rank`: ids and parent links survive. -/
theorem loop_struct (rp : List (List Nat) → Except Unit (List Nat))
    (gs : List RankingGroup) :
    ∀ msgs, structKeys (updateRanksLoop rp gs msgs).1 = structKeys msgs := by
  induction gs with
  | nil => intro msgs; rfl
  | cons g rest ih =>
    intro msgs
    rw [loop_cons]
    cases hs : stepOf rp g with
    | skip => exact ih msgs
    | err => rfl
    | go c =>
      cases hh : c.head? with
      | none => simp [hh]
      | some c0 =>
        cases hf : msgs.find? (fun m => m.id = c0) with
        | none => simp [hh, hf]
        | some cm => simp [hh, hf, ih, structKeys_map_groupApply]

theorem find_key_congr (c0 : Nat) :
    ∀ (m m' : List Msg), structKeys m = structKeys m' →
      Option.map Msg.parentId (m.find? (fun x => x.id = c0)) =
        Option.map Msg.parentId (m'.find? (fun x => x.id = c0)) := by
  intro m
  induction m with
  | nil =>
    intro m' h
    cases m' with
    | nil => rfl
    | cons y ys => simp [structKeys] at h
  | cons x xs ih =>
    intro m' h
    cases m' with
    | nil => simp [structKeys] at h
    | cons y ys =>
      simp only [structKeys, List.map_cons, List.cons.injEq, msgKey,
        Prod.mk.injEq] at h
      obtain ⟨⟨hid, hpar⟩, htail⟩ := h
      by_cases hc : x.id = c0
      · have hy : y.id = c0 := hid ▸ hc
        rw [List.find?_cons_of_pos _ (by simpa using hc),
          List.find?_cons_of_pos _ (by simpa using hy)]
        simp [hpar]
      · have hy : ¬ (y.id = c0) := hid ▸ hc
        rw [List.find?_cons_of_neg _ (by simpa using hc),
          List.find?_cons_of_neg _ (by simpa using hy)]
        exact ih ys htail

/-- The success flag of the consensus loop depends only on the structural
part of the message table (it never reads `rank`). -/
theorem loop_flag_congr (rp : List (List Nat) → Except Unit (List Nat))
    (gs : List RankingGroup) :
    ∀ m m', structKeys m = structKeys m' →
      (updateRanksLoop rp gs m).2 = (updateRanksLoop rp gs m').2 := by
  induction gs with
  | nil => intro m m' _; rfl
  | cons g rest ih =>
    intro m m' h
    rw [loop_cons, loop_cons]
    cases hs : stepOf rp g with
    | skip => exact ih m m' h
    | err => rfl
    | go c =>
      cases hh : c.head? with
      | none => simp [hh]
      | some c0 =>
        have hmap := find_key_congr c0 m m' h
        cases hf : m.find? (fun x => x.id = c0) with
        | none =>
          cases hf' : m'.find? (fun x => x.id = c0) with
          | none => simp [hh, hf, hf']
          | some cm' => rw [hf, hf'] at hmap; simp at hmap
        | some cm =>
          cases hf' : m'.find? (fun x => x.id = c0) with
          | none => rw [hf, hf'] at hmap; simp at hmap
          | some cm' =>
            have hpp : cm.parentId = cm'.parentId := by
              rw [hf, hf'] at hmap
              simpa using hmap
            simp only [hh, hf, hf']
            apply ih
            rw [hpp]
            calc structKeys (m.map (groupApply cm'.parentId c))
                = structKeys m := structKeys_map_groupApply _ _ _
              _ = structKeys m' := h
              _ = structKeys (m'.map (groupApply cm'.parentId c)) :=
                  (structKeys_map_groupApply _ _ _).symm

theorem consensusOf_eq_step (rp : List (List Nat) → Except Unit (List Nat))
    (g : RankingGroup) :
    consensusOf rp g = (match stepOf rp g with
                        | StepRes.go c => some c
                        | _ => none) := by
  cases hc : commonSet g.orderings with
  | none => simp [consensusOf, stepOf, hc]
  | some common =>
    by_cases h2 : common.card < 2
    · simp [consensusOf, stepOf, hc, h2]
    · by_cases h3 : ((g.orderings.map (fun ids =>
          ids.filter (fun x => decide (x ∈ common)))).all
          (fun ids => ids.length = common.card)) = true
      · cases hrp : rp (g.orderings.map (fun ids =>
            ids.filter (fun x => decide (x ∈ common)))) with
        | error e => simp [consensusOf, stepOf, hc, h2, h3, hrp]
        | ok consensus =>
          by_cases h4 : consensus.length = common.card
          · simp [consensusOf, stepOf, hc, h2, h3, hrp, h4]
          · simp [consensusOf, stepOf, hc, h2, h3, hrp, h4]
      · simp [consensusOf, stepOf, hc, h2, h3]

theorem stepOf_go_spec (rp : List (List Nat) → Except Unit (List Nat))
    (g : RankingGroup) (c : List Nat) (h : stepOf rp g = StepRes.go c) :
    ∃ common, commonSet g.orderings = some common ∧ 2 ≤ common.card ∧
      rp (g.orderings.map (fun ids => ids.filter (fun x => decide (x ∈ common))))
        = Except.ok c ∧
      c.length = common.card := by
  cases hc : commonSet g.orderings with
  | none => simp [stepOf, hc] at h
  | some common =>
    refine ⟨common, rfl, ?_⟩
    by_cases h2 : common.card < 2
    · simp [stepOf, hc, h2] at h
    · by_cases h3 : ((g.orderings.map (fun ids =>
          ids.filter (fun x => decide (x ∈ common)))).all
          (fun ids => ids.length = common.card)) = true
      · cases hrp : rp (g.orderings.map (fun ids =>
            ids.filter (fun x => decide (x ∈ common)))) with
        | error e => simp [stepOf, hc, h2, h3, hrp] at h
        | ok consensus =>
          by_cases h4 : consensus.length = common.card
          · simp [stepOf, hc, h2, h3, hrp, h4] at h
            subst h
            exact ⟨by omega, rfl, h4⟩
          · simp [stepOf, hc, h2, h3, hrp, h4] at h
      · simp [stepOf, hc, h2, h3] at h

theorem commonSet_ne_nil (l : List (List Nat)) (com : Finset Nat)
    (h : commonSet l = some com) : l ≠ [] := by
  intro hcon
  subst hcon
  simp [commonSet] at h

theorem find_id_of_nodup (msgs : List Msg)
    (hids : (msgs.map Msg.id).Nodup) (m0 : Msg) (hm : m0 ∈ msgs) (c0 : Nat)
    (hid : m0.id = c0) :
    msgs.find? (fun m => m.id = c0) = some m0 := by
  induction msgs with
  | nil => simp at hm
  | cons x xs ih =>
    simp only [List.map_cons, List.nodup_cons] at hids
    obtain ⟨hx, hxs⟩ := hids
    rcases List.mem_cons.mp hm with rfl | hmem
    · exact List.find?_cons_of_pos _ (by simpa using hid)
    · have hxid : ¬ (x.id = c0) := by
        intro hcon
        exact hx (List.mem_map.mpr ⟨m0, hmem, by rw [hid, hcon]⟩)
      rw [List.find?_cons_of_neg _ (by simpa using hxid)]
      exact ih hxs hmem

theorem eq_of_nodup_id (msgs : List Msg)
    (hids : (msgs.map Msg.id).Nodup) (m0 m1 : Msg) (h0 : m0 ∈ msgs)
    (h1 : m1 ∈ msgs) (heq : m0.id = m1.id) : m0 = m1 := by
  induction msgs with
  | nil => simp at h0
  | cons x xs ih =>
    simp only [List.map_cons, List.nodup_cons] at hids
    obtain ⟨hx, hxs⟩ := hids
    rcases List.mem_cons.mp h0 with rfl | hm0 <;>
      rcases List.mem_cons.mp h1 with h1' | hm1
    · exact h1'.symm ▸ rfl
    · exact absurd (List.mem_map.mpr ⟨m1, hm1, heq.symm⟩) hx
    · exact absurd (List.mem_map.mpr ⟨m0, hm0, heq ▸ (h1' ▸ rfl)⟩) hx
    · exact ih hxs hm0 hm1

theorem ids_map_groupApply (pid : Option Nat) (c : List Nat)
    (msgs : List Msg) :
    (msgs.map (groupApply pid c)).map Msg.id = msgs.map Msg.id := by
  rw [List.map_map]
  apply List.map_congr_left
  intro m _
  exact (groupApply_key pid c m).1

theorem planApply_key (rp : List (List Nat) → Except Unit (List Nat))
    (gs : List RankingGroup) :
    ∀ m, (planApply rp gs m).id = m.id ∧ (planApply rp gs m).parentId = m.parentId := by
  induction gs with
  | nil => intro m; exact ⟨rfl, rfl⟩
  | cons g rest ih =>
    intro m
    show ((g :: rest).foldl _ m).id = m.id ∧ ((g :: rest).foldl _ m).parentId = m.parentId
    rw [List.foldl_cons]
    cases hcg : consensusOf rp g with
    | none => simpa [hcg] using ih m
    | some c =>
      have hkey := groupApply_key (some g.parentId) c m
      have := ih (groupApply (some g.parentId) c m)
      simp only [hcg]
      exact ⟨this.1.trans hkey.1, this.2.trans hkey.2⟩

theorem planApply_untouched (rp : List (List Nat) → Except Unit (List Nat))
    (gs : List RankingGroup) :
    ∀ m, (∀ g ∈ gs, consensusOf rp g ≠ none → ¬ (m.parentId = some g.parentId)) →
      planApply rp gs m = m := by
  induction gs with
  | nil => intro m _; rfl
  | cons g rest ih =>
    intro m h
    show (g :: rest).foldl _ m = m
    rw [List.foldl_cons]
    cases hcg : consensusOf rp g with
    | none => exact ih m (fun g' hg' => h g' (List.mem_cons_of_mem g hg'))
    | some c =>
      have hne := h g (List.mem_cons_self g rest) (by simp [hcg])
      simp only [hcg]
      rw [show groupApply (some g.parentId) c m = m from by simp [groupApply, hne]]
      exact ih m (fun g' hg' => h g' (List.mem_cons_of_mem g hg'))

theorem planApply_touched (rp : List (List Nat) → Except Unit (List Nat))
    (gs : List RankingGroup) :
    ∀ (g : RankingGroup) (c : List Nat) (m : Msg), g ∈ gs →
      consensusOf rp g = some c → m.parentId = some g.parentId →
      (gs.map RankingGroup.parentId).Nodup →
      planApply rp gs m = { m with rank := lastIdxFrom 0 c m.id } := by
  induction gs with
  | nil => intro g c m hg; simp at hg
  | cons g' rest ih =>
    intro g c m hg hc hm hpar
    simp only [List.map_cons, List.nodup_cons] at hpar
    obtain ⟨hhead, htail⟩ := hpar
    show (g' :: rest).foldl _ m = _
    rw [List.foldl_cons]
    rcases List.mem_cons.mp hg with rfl | hmem
    · simp only [hc]
      rw [show groupApply (some g.parentId) c m = { m with rank := lastIdxFrom 0 c m.id }
        from by simp [groupApply, hm]]
      apply planApply_untouched
      intro g'' hg'' hcg''
      show ¬ (({ m with rank := lastIdxFrom 0 c m.id } : Msg).parentId = some g''.parentId)
      intro hcon
      have hpp : some g.parentId = some g''.parentId := by
        rw [← hm]
        exact hcon
      have hgg : g.parentId = g''.parentId := Option.some.inj hpp
      exact hhead (List.mem_map.mpr ⟨g'', hg'', hgg.symm⟩)
    · have hne : g'.parentId ≠ g.parentId := by
        intro hcon
        exact hhead (hcon ▸ List.mem_map.mpr ⟨g, hmem, rfl⟩)
      cases hcg' : consensusOf rp g' with
      | none => exact ih g c m hmem hc hm htail
      | some c' =>
        simp only [hcg']
        rw [show groupApply (some g'.parentId) c' m = m from by
          simp [groupApply, hm]
          intro hcon
          exact absurd hcon.symm hne]
        exact ih g c m hmem hc hm htail

/-- Normal form of a successful consensus pass: under the claim's
well-formedness conditions the final message table is the pointwise
`planApply` image of the input. -/
theorem loop_success_nf (rp : List (List Nat) → Except Unit (List Nat))
    (hrp : ∀ l c, rp l = Except.ok c → c.Nodup ∧ ∀ x ∈ c, ∀ ids ∈ l, x ∈ ids)
    (gs : List RankingGroup) :
    ∀ msgs, (msgs.map Msg.id).Nodup →
      (∀ g ∈ gs, ∀ ids ∈ g.orderings, ∀ x ∈ ids,
        ∃ m ∈ msgs, m.id = x ∧ m.parentId = some g.parentId) →
      (updateRanksLoop rp gs msgs).2 = true →
      (updateRanksLoop rp gs msgs).1 = msgs.map (planApply rp gs) := by
  induction gs with
  | nil =>
    intro msgs _ _ _
    show msgs = msgs.map (planApply rp [])
    rw [show msgs.map (planApply rp []) = msgs.map id from
      List.map_congr_left (fun m _ => rfl), List.map_id]
  | cons g rest ih =>
    intro msgs hids hwf hok
    rw [loop_cons] at hok ⊢
    cases hs : stepOf rp g with
    | skip =>
      rw [hs] at hok
      have hcg : consensusOf rp g = none := by
        rw [consensusOf_eq_step, hs]
      rw [ih msgs hids (fun g' hg' => hwf g' (List.mem_cons_of_mem g hg')) hok]
      apply List.map_congr_left
      intro m _
      show planApply rp rest m = planApply rp (g :: rest) m
      show _ = (g :: rest).foldl _ m
      rw [List.foldl_cons]
      simp only [hcg]
      rfl
    | err => rw [hs] at hok; simp at hok
    | go c =>
      rw [hs] at hok
      obtain ⟨common, hcom, hcard2, hrpc, hlen⟩ := stepOf_go_spec rp g c hs
      have hcg : consensusOf rp g = some c := by
        rw [consensusOf_eq_step, hs]
      obtain ⟨hnd, hmemall⟩ := hrp _ _ hrpc
      cases hh : c.head? with
      | none =>
        rw [List.head?_eq_none_iff] at hh
        subst hh
        simp at hlen
        omega
      | some c0 =>
        have hc0c : c0 ∈ c := by
          cases c with
          | nil => simp at hh
          | cons a as =>
            simp at hh
            exact hh ▸ List.mem_cons_self a as
        obtain ⟨ids0, rest0, hord⟩ : ∃ ids0 rest0, g.orderings = ids0 :: rest0 := by
          cases hords : g.orderings with
          | nil => exact absurd (hords ▸ hcom) (by simp [commonSet])
          | cons a b => exact ⟨a, b, rfl⟩
        have hc0ids : c0 ∈ ids0 := by
          have hmemf : (ids0.filter (fun x => decide (x ∈ common))) ∈
              g.orderings.map (fun ids => ids.filter (fun x => decide (x ∈ common))) := by
            rw [hord]
            exact List.mem_cons_self _ _
          have := hmemall c0 hc0c _ hmemf
          exact (List.mem_filter.mp this).1
        obtain ⟨m0, hm0, hid0, hp0⟩ :=
          hwf g (List.mem_cons_self g rest) ids0 (hord ▸ List.mem_cons_self ids0 rest0)
            c0 hc0ids
        have hfind : msgs.find? (fun m => m.id = c0) = some m0 :=
          find_id_of_nodup msgs hids m0 hm0 c0 hid0
        simp only [hh, hfind] at hok ⊢
        have hids' : ((msgs.map (groupApply m0.parentId c)).map Msg.id).Nodup := by
          rw [ids_map_groupApply]
          exact hids
        have hwf' : ∀ g' ∈ rest, ∀ ids ∈ g'.orderings, ∀ x ∈ ids,
            ∃ m ∈ msgs.map (groupApply m0.parentId c),
              m.id = x ∧ m.parentId = some g'.parentId := by
          intro g' hg' ids hidsg x hx
          obtain ⟨m, hm, hidm, hpm⟩ :=
            hwf g' (List.mem_cons_of_mem g hg') ids hidsg x hx
          refine ⟨groupApply m0.parentId c m, List.mem_map_of_mem _ hm, ?_, ?_⟩
          · rw [(groupApply_key _ _ m).1, hidm]
          · rw [(groupApply_key _ _ m).2, hpm]
        rw [ih _ hids' hwf' hok, List.map_map]
        apply List.map_congr_left
        intro m _
        show planApply rp rest (groupApply m0.parentId c m) = planApply rp (g :: rest) m
        show _ = (g :: rest).foldl _ m
        rw [List.foldl_cons]
        simp only [hcg, hp0]
        rfl

/-! ## Error handling of the scoring pass: claim C3 -/

/-- Claim C3: for a tree in READY_FOR_SCORING (or RANKING, or retried from
SCORING_FAILED) with the ranking quorum met,
`check_condition_for_scoring_state` always completes and returns `true`
(the consensus outcome is not an error surface for the caller); if the
consensus loop raises, the tree ends in SCORING_FAILED, and if no exception
occurs it enters READY_FOR_EXPORT (becoming inactive). -/
theorem claim_C3 (rp : List (List Nat) → Except Unit (List Nat))
    (numRequired : Nat) (rankings : List RankingGroup) (s : ScoringState)
    (hstate : s.mts.state = St.scoring_failed ∨
      (s.mts.active = true ∧
        (s.mts.state = St.ranking ∨ s.mts.state = St.ready_for_scoring)))
    (hq : quorumOk numRequired rankings = true) :
    (check_condition_for_scoring_state rp numRequired rankings s).2 = true ∧
    ((updateRanksLoop rp rankings s.msgs).2 = false →
      (check_condition_for_scoring_state rp numRequired rankings s).1.mts.state =
        St.scoring_failed) ∧
    ((updateRanksLoop rp rankings s.msgs).2 = true →
      (check_condition_for_scoring_state rp numRequired rankings s).1.mts.state =
        St.ready_for_export ∧
      (check_condition_for_scoring_state rp numRequired rankings s).1.mts.active =
        false) := by
  obtain ⟨⟨st, act⟩, msgs⟩ := s
  cases hlr : (updateRanksLoop rp rankings msgs).2 <;>
    rcases hstate with hsf | ⟨hact, hrs⟩
  · simp only at hsf
    subst hsf
    simp [check_condition_for_scoring_state, update_message_ranks,
      enterStateMts, TERMINAL_STATES, hq, hlr]
  · simp only at hact
    subst hact
    rcases hrs with hr | hr <;> simp only at hr <;> subst hr <;>
      simp [check_condition_for_scoring_state, update_message_ranks,
        enterStateMts, TERMINAL_STATES, hq, hlr]
  · simp only at hsf
    subst hsf
    simp [check_condition_for_scoring_state, update_message_ranks,
      enterStateMts, TERMINAL_STATES, hq, hlr]
  · simp only at hact
    subst hact
    rcases hrs with hr | hr <;> simp only at hr <;> subst hr <;>
      simp [check_condition_for_scoring_state, update_message_ranks,
        enterStateMts, TERMINAL_STATES, hq, hlr]

/-- Witness for C3: one parent with two contradicting-free rankings, the
consensus oracle raising; the check returns `true` and the tree moves from
READY_FOR_SCORING to SCORING_FAILED. -/
theorem claim_C3_witness :
    (check_condition_for_scoring_state (fun _ => Except.error ()) 2
        [⟨5, [[1, 2], [2, 1]]⟩]
        ⟨⟨St.ready_for_scoring, true⟩, [⟨1, some 5, none⟩, ⟨2, some 5, none⟩]⟩).2
      = true ∧
    (check_condition_for_scoring_state (fun _ => Except.error ()) 2
        [⟨5, [[1, 2], [2, 1]]⟩]
        ⟨⟨St.ready_for_scoring, true⟩, [⟨1, some 5, none⟩, ⟨2, some 5, none⟩]⟩).1.mts.state
      = St.scoring_failed := by
  have h := claim_C3 (fun _ => Except.error ()) 2 [⟨5, [[1, 2], [2, 1]]⟩]
    ⟨⟨St.ready_for_scoring, true⟩, [⟨1, some 5, none⟩, ⟨2, some 5, none⟩]⟩
    (Or.inr ⟨rfl, Or.inr rfl⟩) (by decide)
  refine ⟨h.1, h.2.1 ?_⟩
  decide

/-! ## Condition-check idempotence: claim C8 -/

/-- Claim C8: each of the three state-machine condition checks is
idempotent — a second invocation without intervening writes returns `false`
for the growing and ranking checks and leaves the tree's state and active
flag exactly where the first invocation left them, also for the scoring
check (whose internal SCORING_FAILED retry re-runs deterministically to the
same state). -/
theorem claim_C8 :
    (∀ (rootReviewed : Bool) (mts : Mts),
      check_condition_for_growing_state rootReviewed
          (check_condition_for_growing_state rootReviewed mts).1 =
        ((check_condition_for_growing_state rootReviewed mts).1, false)) ∧
    (∀ (remaining awaiting : Nat) (mts : Mts),
      check_condition_for_ranking_state remaining awaiting
          (check_condition_for_ranking_state remaining awaiting mts).1 =
        ((check_condition_for_ranking_state remaining awaiting mts).1, false)) ∧
    (∀ (rp : List (List Nat) → Except Unit (List Nat)) (numRequired : Nat)
        (rankings : List RankingGroup) (s : ScoringState),
      (check_condition_for_scoring_state rp numRequired rankings
          (check_condition_for_scoring_state rp numRequired rankings s).1).1.mts =
        (check_condition_for_scoring_state rp numRequired rankings s).1.mts) := by
  refine ⟨?_, ?_, ?_⟩
  · intro rootReviewed mts
    by_cases h1 : mts.active = false ∨ mts.state ≠ St.initial_prompt_review
    · simp [check_condition_for_growing_state, h1]
    · by_cases h2 : rootReviewed = false
      · simp [check_condition_for_growing_state, h1, h2]
      · simp [check_condition_for_growing_state, h1, h2, enterStateMts,
          TERMINAL_STATES]
  · intro remaining awaiting mts
    by_cases h1 : mts.active = false ∨ mts.state ≠ St.growing
    · simp [check_condition_for_ranking_state, h1]
    · by_cases h2 : 0 < remaining ∨ 0 < awaiting
      · simp [check_condition_for_ranking_state, h1, h2]
      · simp [check_condition_for_ranking_state, h1, h2, enterStateMts,
          TERMINAL_STATES]
  · intro rp numRequired rankings s
    obtain ⟨⟨st, act⟩, msgs⟩ := s
    have hflag := loop_flag_congr rp rankings
      (updateRanksLoop rp rankings msgs).1 msgs (loop_struct rp rankings msgs)
    by_cases hq : quorumOk numRequired rankings = true
    · cases hlr : (updateRanksLoop rp rankings msgs).2 <;>
        rw [hlr] at hflag <;>
        cases st <;> cases act <;>
          simp [check_condition_for_scoring_state, update_message_ranks,
            enterStateMts, TERMINAL_STATES, hq, hlr, hflag]
    · cases st <;> cases act <;>
        simp [check_condition_for_scoring_state, update_message_ranks,
          enterStateMts, TERMINAL_STATES, hq]

/-! ## The consensus pass: claim C1 -/

theorem consensusOf_some_step (rp : List (List Nat) → Except Unit (List Nat))
    (g : RankingGroup) (c : List Nat) (h : consensusOf rp g = some c) :
    stepOf rp g = StepRes.go c := by
  rw [consensusOf_eq_step] at h
  cases hs : stepOf rp g with
  | skip => rw [hs] at h; simp at h
  | err => rw [hs] at h; simp at h
  | go c' =>
    rw [hs] at h
    simp at h
    subst h
    rfl

theorem rpWitness_spec : ∀ l c, rpWitness l = Except.ok c →
    c.Nodup ∧ ∀ x ∈ c, ∀ ids ∈ l, x ∈ ids := by
  intro l c h
  cases l with
  | nil => simp [rpWitness] at h
  | cons ids rest =>
    simp only [rpWitness, Except.ok.injEq] at h
    subst h
    refine ⟨List.nodup_dedup _, ?_⟩
    intro x hx ids' hids'
    rw [List.mem_dedup] at hx
    obtain ⟨hxi, hall⟩ := List.mem_filter.mp hx
    rcases List.mem_cons.mp hids' with rfl | hmem
    · exact hxi
    · have hall' : ∀ ys ∈ rest, x ∈ ys := by simpa using hall
      exact hall' ids' hmem

/-- Claim C1: after a successful scoring pass (`update_message_ranks`
returning `true`) starting from an unscored tree, for every eligible parent
(one whose common candidate set has at least two elements, i.e. the
consensus was computed) each sibling carries exactly the index of its id in
the consensus order (`none` for siblings outside the consensus); parents
whose common set is too small are skipped and their children are left with
all-null ranks, as are messages under unranked parents; consequently the
non-null ranks of every sibling set form a duplicate-free contiguous prefix
`[0..k)`.  Hypotheses: `hrp` is the ranked-pairs contract of the spec;
`hids`, `hwf`, `hpar` state that message ids are unique, that every ranked
id is a child of its submission's parent, and that submissions are grouped
by parent. -/
theorem claim_C1 (rp : List (List Nat) → Except Unit (List Nat))
    (rankings : List RankingGroup) (s : ScoringState)
    (hrp : ∀ l c, rp l = Except.ok c → c.Nodup ∧ ∀ x ∈ c, ∀ ids ∈ l, x ∈ ids)
    (hids : (s.msgs.map Msg.id).Nodup)
    (hnull : ∀ m ∈ s.msgs, m.rank = none)
    (hwf : ∀ g ∈ rankings, ∀ ids ∈ g.orderings, ∀ x ∈ ids,
        ∃ m ∈ s.msgs, m.id = x ∧ m.parentId = some g.parentId)
    (hpar : (rankings.map RankingGroup.parentId).Nodup)
    (hok : (update_message_ranks rp rankings s).2 = true) :
    (∀ g ∈ rankings, ∀ c, consensusOf rp g = some c →
      ∀ m ∈ (update_message_ranks rp rankings s).1.msgs,
        m.parentId = some g.parentId → m.rank = lastIdxFrom 0 c m.id) ∧
    (∀ g ∈ rankings, consensusOf rp g = none →
      ∀ m ∈ (update_message_ranks rp rankings s).1.msgs,
        m.parentId = some g.parentId → m.rank = none) ∧
    (∀ m ∈ (update_message_ranks rp rankings s).1.msgs,
      (∀ g ∈ rankings, m.parentId ≠ some g.parentId) → m.rank = none) ∧
    (∀ m ∈ (update_message_ranks rp rankings s).1.msgs, ∀ r, m.rank = some r →
      (∀ j, j < r → ∃ m' ∈ (update_message_ranks rp rankings s).1.msgs,
        m'.parentId = m.parentId ∧ m'.rank = some j) ∧
      (∀ m' ∈ (update_message_ranks rp rankings s).1.msgs,
        m'.parentId = m.parentId → m'.rank = some r → m' = m)) := by
  have key : (updateRanksLoop rp rankings s.msgs).2 = true ∧
      (update_message_ranks rp rankings s).1.msgs =
        (updateRanksLoop rp rankings s.msgs).1 := by
    unfold update_message_ranks at hok ⊢
    by_cases hgate : s.mts.state ≠ St.ready_for_scoring ∧
        s.mts.state ≠ St.scoring_failed
    · simp [hgate] at hok
    · cases hlr : (updateRanksLoop rp rankings s.msgs).2
      · simp [hgate, hlr] at hok
      · simp [hgate, hlr]
  obtain ⟨hloop, hmsgs⟩ := key
  have hnf := loop_success_nf rp hrp rankings s.msgs hids hwf hloop
  rw [hmsgs, hnf]
  refine ⟨?_, ?_, ?_, ?_⟩
  · -- (a) eligible parents
    intro g hg c hc m hm hp
    obtain ⟨m0, hm0, rfl⟩ := List.mem_map.mp hm
    have hkey := planApply_key rp rankings m0
    have hp0 : m0.parentId = some g.parentId := by rw [← hkey.2]; exact hp
    rw [planApply_touched rp rankings g c m0 hg hc hp0 hpar]
  · -- (b) skipped parents stay all-null
    intro g hg hcg m hm hp
    obtain ⟨m0, hm0, rfl⟩ := List.mem_map.mp hm
    have hkey := planApply_key rp rankings m0
    have hp0 : m0.parentId = some g.parentId := by rw [← hkey.2]; exact hp
    have huntouched : planApply rp rankings m0 = m0 := by
      apply planApply_untouched
      intro g' hg' hcg' hpcon
      have hgg : g.parentId = g'.parentId :=
        Option.some.inj (hp0.symm.trans hpcon)
      have : g = g' :=
        List.inj_on_of_nodup_map hpar hg hg' hgg
      exact hcg' (this ▸ hcg)
    rw [huntouched]
    exact hnull m0 hm0
  · -- (c) messages under no ranked parent
    intro m hm hno
    obtain ⟨m0, hm0, rfl⟩ := List.mem_map.mp hm
    have hkey := planApply_key rp rankings m0
    have huntouched : planApply rp rankings m0 = m0 := by
      apply planApply_untouched
      intro g' hg' _ hpcon
      exact hno g' hg' (by rw [← hkey.2] at hpcon; rw [hkey.2] at hpcon ⊢; exact hpcon)
    rw [huntouched]
    exact hnull m0 hm0
  · -- (d) contiguous prefix, no duplicates
    intro m hm r hr
    obtain ⟨m0, hm0, rfl⟩ := List.mem_map.mp hm
    have hkey := planApply_key rp rankings m0
    have hex : ∃ g ∈ rankings, ∃ c, consensusOf rp g = some c ∧
        m0.parentId = some g.parentId := by
      by_contra hno
      push_neg at hno
      have huntouched : planApply rp rankings m0 = m0 := by
        apply planApply_untouched
        intro g' hg' hcg' hpcon
        cases hcg : consensusOf rp g' with
        | none => exact hcg' hcg
        | some c' => exact absurd hpcon (hno g' hg' c' hcg)
      rw [huntouched] at hr
      rw [hnull m0 hm0] at hr
      cases hr
    obtain ⟨g, hg, c, hcg, hpm⟩ := hex
    have htouch := planApply_touched rp rankings g c m0 hg hcg hpm hpar
    have hrank : lastIdxFrom 0 c m0.id = some r := by
      rw [htouch] at hr
      exact hr
    have hstep := consensusOf_some_step rp g c hcg
    obtain ⟨common, hcom, hcard2, hrpc, hlen⟩ := stepOf_go_spec rp g c hstep
    obtain ⟨hnd, hmemall⟩ := hrp _ _ hrpc
    obtain ⟨ids0, rest0, hord⟩ : ∃ ids0 rest0, g.orderings = ids0 :: rest0 := by
      cases hords : g.orderings with
      | nil => exact absurd (hords ▸ hcom) (by simp [commonSet])
      | cons a b => exact ⟨a, b, rfl⟩
    have hmemids : ∀ y ∈ c, y ∈ ids0 := by
      intro y hy
      have hmemf : (ids0.filter (fun x => decide (x ∈ common))) ∈
          g.orderings.map (fun ids => ids.filter (fun x => decide (x ∈ common))) := by
        rw [hord]
        exact List.mem_cons_self _ _
      exact (List.mem_filter.mp (hmemall y hy _ hmemf)).1
    obtain ⟨hr0, hrlt, hnth⟩ := lastIdxFrom_spec c m0.id 0 r hrank
    rw [Nat.sub_zero] at hrlt hnth
    constructor
    · intro j hj
      obtain ⟨y, hy⟩ := nthOpt_lt c j (by omega)
      have hyc : y ∈ c := nthOpt_mem c j y hy
      obtain ⟨my, hmy, hidy, hpy⟩ :=
        hwf g hg ids0 (hord ▸ List.mem_cons_self ids0 rest0) y (hmemids y hyc)
      refine ⟨planApply rp rankings my, List.mem_map_of_mem _ hmy, ?_, ?_⟩
      · have hkeyy := planApply_key rp rankings my
        rw [hkeyy.2, hkey.2, hpy, hpm]
      · rw [planApply_touched rp rankings g c my hg hcg hpy hpar]
        show lastIdxFrom 0 c my.id = some j
        rw [hidy]
        simpa using lastIdxFrom_of_nth c y hnd 0 j hy
    · intro m' hm' hp' hr'
      obtain ⟨m1, hm1, rfl⟩ := List.mem_map.mp hm'
      have hkey1 := planApply_key rp rankings m1
      have hp1 : m1.parentId = some g.parentId := by
        rw [← hkey1.2, hp', hkey.2, hpm]
      have htouch1 := planApply_touched rp rankings g c m1 hg hcg hp1 hpar
      have hrank1 : lastIdxFrom 0 c m1.id = some r := by
        rw [htouch1] at hr'
        exact hr'
      obtain ⟨_, hrlt1, hnth1⟩ := lastIdxFrom_spec c m1.id 0 r hrank1
      rw [Nat.sub_zero] at hnth1
      have hideq : m1.id = m0.id := by
        rw [hnth] at hnth1
        exact (Option.some.inj hnth1).symm
      rw [eq_of_nodup_id s.msgs hids m1 m0 hm1 hm0 hideq]

/-- Witness for C1: two children of parent 5 ranked `[1, 2]` by both
submissions; after the pass the message with rank 1 has a sibling with
rank 0. -/
theorem claim_C1_witness :
    ∃ m ∈ (update_message_ranks rpWitness [⟨5, [[1, 2], [2, 1]]⟩]
        ⟨⟨St.ready_for_scoring, true⟩,
         [⟨5, none, none⟩, ⟨1, some 5, none⟩, ⟨2, some 5, none⟩]⟩).1.msgs,
      m.rank = some 1 ∧
      ∃ m' ∈ (update_message_ranks rpWitness [⟨5, [[1, 2], [2, 1]]⟩]
          ⟨⟨St.ready_for_scoring, true⟩,
           [⟨5, none, none⟩, ⟨1, some 5, none⟩, ⟨2, some 5, none⟩]⟩).1.msgs,
        m'.parentId = m.parentId ∧ m'.rank = some 0 := by
  have h := claim_C1 rpWitness [⟨5, [[1, 2], [2, 1]]⟩]
    ⟨⟨St.ready_for_scoring, true⟩,
     [⟨5, none, none⟩, ⟨1, some 5, none⟩, ⟨2, some 5, none⟩]⟩
    rpWitness_spec (by decide) (by decide) (by decide) (by decide) (by decide)
  obtain ⟨hdown, _⟩ := h.2.2.2 ⟨2, some 5, some 1⟩ (by decide) 1 rfl
  obtain ⟨m', hm', hp', hr'⟩ := hdown 0 (by omega)
  exact ⟨⟨2, some 5, some 1⟩, by decide, rfl, m', hm', hp', hr'⟩

/-! ## Backlog activation: counting and frame primitives -/

theorem backlogCount_applyEnter_le (db : List TreeRow) (tid : Nat) (s : St)
    (hs : s ≠ St.backlog_ranking) :
    backlogCount (applyEnter db tid s) ≤ backlogCount db := by
  unfold backlogCount applyEnter updState
  rw [List.countP_map]
  apply List.countP_mono_left
  intro a _
  by_cases h : a.tid = tid <;> simp [Function.comp, h, hs]

theorem backlogCount_cons (x : TreeRow) (xs : List TreeRow) :
    backlogCount (x :: xs) =
      (if x.state = St.backlog_ranking then 1 else 0) + backlogCount xs := by
  unfold backlogCount
  rw [List.countP_cons]
  by_cases h : x.state = St.backlog_ranking <;> simp [h] <;> omega

theorem applyEnter_cons (x : TreeRow) (xs : List TreeRow) (tid : Nat) (s : St) :
    applyEnter (x :: xs) tid s =
      (if x.tid = tid then
        { x with
          state := s,
          active := (if s ∈ TERMINAL_STATES then false else x.active) }
       else x) :: applyEnter xs tid s := rfl

theorem backlogCount_applyEnter_lt (db : List TreeRow) (tid : Nat) (s : St)
    (hs : s ≠ St.backlog_ranking)
    (hex : ∃ t ∈ db, t.tid = tid ∧ t.state = St.backlog_ranking) :
    backlogCount (applyEnter db tid s) + 1 ≤ backlogCount db := by
  induction db with
  | nil => simp at hex
  | cons x xs ih =>
    obtain ⟨t, ht, htid, hback⟩ := hex
    rw [applyEnter_cons, backlogCount_cons, backlogCount_cons]
    rcases List.mem_cons.mp ht with rfl | hmem
    · have h1 := backlogCount_applyEnter_le xs tid s hs
      simp [htid, hs, hback]
      omega
    · have h1 := ih ⟨t, hmem, htid, hback⟩
      by_cases hxtid : x.tid = tid
      · simp [hxtid, hs]
        omega
      · simp only [hxtid, if_neg, not_false_iff]
        omega

theorem backlogCount_setActive (db : List TreeRow) (tid : Nat) :
    backlogCount (updState db tid (fun x => { x with active := true })) =
      backlogCount db := by
  unfold backlogCount updState
  rw [List.countP_map]
  apply List.countP_congr
  intro a _
  by_cases h : a.tid = tid <;> simp [Function.comp, h]

theorem backlogCount_pos (db : List TreeRow) (t : TreeRow) (ht : t ∈ db)
    (hback : t.state = St.backlog_ranking) : 1 ≤ backlogCount db := by
  unfold backlogCount
  exact List.countP_pos.mpr ⟨t, ht, by simp [hback]⟩

theorem mem_updState_of_ne (db : List TreeRow) (tid : Nat)
    (f : TreeRow → TreeRow) (r : TreeRow) (hr : r ∈ db) (hne : r.tid ≠ tid) :
    r ∈ updState db tid f := by
  have : r = (fun t => if t.tid = tid then f t else t) r := by simp [hne]
  rw [this]
  exact List.mem_map_of_mem _ hr

theorem tids_updState (db : List TreeRow) (tid : Nat) (f : TreeRow → TreeRow)
    (hf : ∀ x, (f x).tid = x.tid) :
    (updState db tid f).map TreeRow.tid = db.map TreeRow.tid := by
  unfold updState
  rw [List.map_map]
  apply List.map_congr_left
  intro a _
  by_cases h : a.tid = tid <;> simp [Function.comp, h, hf]

theorem tids_applyEnter (db : List TreeRow) (tid : Nat) (s : St) :
    (applyEnter db tid s).map TreeRow.tid = db.map TreeRow.tid :=
  tids_updState db tid _ (fun _ => rfl)

theorem find_tid_of_nodup (db : List TreeRow)
    (hnd : (db.map TreeRow.tid).Nodup) (t : TreeRow) (ht : t ∈ db) :
    db.find? (fun x => x.tid = t.tid) = some t := by
  induction db with
  | nil => simp at ht
  | cons x xs ih =>
    simp only [List.map_cons, List.nodup_cons] at hnd
    obtain ⟨hx, hxs⟩ := hnd
    rcases List.mem_cons.mp ht with rfl | hmem
    · exact List.find?_cons_of_pos _ (by simp)
    · have hxt : ¬ (x.tid = t.tid) := by
        intro hcon
        exact hx (List.mem_map.mpr ⟨t, hmem, hcon.symm⟩)
      rw [List.find?_cons_of_neg _ (by simpa using hxt)]
      exact ih hxs hmem

theorem findBacklog_spec (db : List TreeRow) (lang : Nat) (t : TreeRow)
    (h : findBacklog db lang = some t) :
    t ∈ db ∧ t.state = St.backlog_ranking ∧ t.lang = lang ∧
      t.rootExists = true := by
  have hmem := List.mem_of_find?_eq_some h
  have hp := List.find?_some h
  simp only [decide_eq_true_eq] at hp
  exact ⟨hmem, hp.1, hp.2.1, hp.2.2⟩

/-- Combined structural facts about the mutual recursion of `_enter_state`
and `activate_backlog_tree`: tree ids are preserved, the number of backlog
trees never increases, rows that are not in the backlog (and are not the
entered tree) survive unchanged, and fuel `2 * backlogCount + 1` (resp.
`+ 2`) always suffices. -/
theorem backlog_master : ∀ (fuel : Nat) (oracle : List TreeRow → Nat → Nat)
    (cfg : BacklogCfg),
    (∀ db lang rng ix,
      (∀ db' ix' act,
        activateBacklogFuel fuel oracle cfg db lang rng ix = some (db', ix', act) →
        db'.map TreeRow.tid = db.map TreeRow.tid ∧
        backlogCount db' ≤ backlogCount db ∧
        (∀ r ∈ db, r.state ≠ St.backlog_ranking →
          (db.map TreeRow.tid).Nodup → r ∈ db')) ∧
      (2 * backlogCount db + 1 ≤ fuel →
        (activateBacklogFuel fuel oracle cfg db lang rng ix).isSome)) ∧
    (∀ db tid s rng ix,
      (∀ db' ix',
        enterStateFuel fuel oracle cfg db tid s rng ix = some (db', ix') →
        db'.map TreeRow.tid = db.map TreeRow.tid ∧
        backlogCount db' ≤ backlogCount (applyEnter db tid s) ∧
        (∀ r ∈ db, r.state ≠ St.backlog_ranking → r.tid ≠ tid →
          (db.map TreeRow.tid).Nodup → r ∈ db')) ∧
      (s ∈ TERMINAL_STATES →
        2 * backlogCount (applyEnter db tid s) + 2 ≤ fuel →
        (enterStateFuel fuel oracle cfg db tid s rng ix).isSome) ∧
      (s ∉ TERMINAL_STATES → 1 ≤ fuel →
        (enterStateFuel fuel oracle cfg db tid s rng ix).isSome)) := by
  intro fuel
  induction fuel with
  | zero =>
    intro oracle cfg
    constructor
    · intro db lang rng ix
      constructor
      · intro db' ix' act h
        simp [activateBacklogFuel] at h
      · intro hf
        omega
    · intro db tid s rng ix
      refine ⟨?_, ?_, ?_⟩
      · intro db' ix' h
        simp [enterStateFuel] at h
      · intro _ hf
        omega
      · intro _ hf
        omega
  | succ f ih =>
    intro oracle cfg
    obtain ⟨ihP, ihQ⟩ := ih oracle cfg
    have hPmut : ∀ db lang rng ix,
        (∀ db' ix' act,
          activateBacklogFuel (f + 1) oracle cfg db lang rng ix = some (db', ix', act) →
          db'.map TreeRow.tid = db.map TreeRow.tid ∧
          backlogCount db' ≤ backlogCount db ∧
          (∀ r ∈ db, r.state ≠ St.backlog_ranking →
            (db.map TreeRow.tid).Nodup → r ∈ db')) ∧
        (2 * backlogCount db + 1 ≤ f + 1 →
          (activateBacklogFuel (f + 1) oracle cfg db lang rng ix).isSome) := by
      intro db lang rng ix
      cases hfb : findBacklog db lang with
      | none =>
        constructor
        · intro db' ix' act h
          simp only [activateBacklogFuel, hfb, Option.some.injEq, Prod.mk.injEq] at h
          obtain ⟨h1, h2, h3⟩ := h
          subst h1
          exact ⟨rfl, Nat.le_refl _, fun r hr _ _ => hr⟩
        · intro _
          simp [activateBacklogFuel, hfb]
      | some t =>
        obtain ⟨htmem, htback, htlang, htroot⟩ := findBacklog_spec db lang t hfb
        have hBpos : 1 ≤ backlogCount db := backlogCount_pos db t htmem htback
        by_cases hrk : t.rankableParents = 0
        · -- abort branch
          have hBlt : backlogCount (applyEnter db t.tid St.aborted_low_grade) + 1 ≤
              backlogCount db :=
            backlogCount_applyEnter_lt db t.tid St.aborted_low_grade (by decide)
              ⟨t, htmem, rfl, htback⟩
          constructor
          · intro db' ix' act h
            cases hA : enterStateFuel f oracle cfg db t.tid St.aborted_low_grade rng ix with
            | none =>
              simp [activateBacklogFuel, hfb, hrk, hA] at h
            | some r =>
              obtain ⟨dbA, ixA⟩ := r
              simp only [activateBacklogFuel, hfb, hrk, if_true, hA] at h
              obtain ⟨hAtid, hAcnt, hAframe⟩ :=
                (ihQ db t.tid St.aborted_low_grade rng ix).1 dbA ixA hA
              obtain ⟨hRtid, hRcnt, hRframe⟩ := (ihP dbA lang rng ixA).1 db' ix' act h
              refine ⟨hRtid.trans hAtid, by omega, ?_⟩
              intro r hr hrstate hnd
              have hrne : r.tid ≠ t.tid := by
                intro hcon
                have : r = t := List.inj_on_of_nodup_map hnd hr htmem hcon
                exact hrstate (this ▸ htback)
              have hr1 : r ∈ dbA := hAframe r hr hrstate hrne hnd
              exact hRframe r hr1 hrstate (by rw [hAtid]; exact hnd)
          · intro hfuel
            have hA : (enterStateFuel f oracle cfg db t.tid St.aborted_low_grade rng ix).isSome := by
              apply (ihQ db t.tid St.aborted_low_grade rng ix).2.1 (by decide)
              omega
            obtain ⟨⟨dbA, ixA⟩, hAeq⟩ := Option.isSome_iff_exists.mp hA
            obtain ⟨hAtid, hAcnt, hAframe⟩ :=
              (ihQ db t.tid St.aborted_low_grade rng ix).1 dbA ixA hAeq
            have hR : (activateBacklogFuel f oracle cfg dbA lang rng ixA).isSome := by
              apply (ihP dbA lang rng ixA).2
              omega
            simp only [activateBacklogFuel, hfb, hrk, if_true, hAeq]
            exact hR
        · -- activation branch
          constructor
          · intro db' ix' act h
            cases hE : enterStateFuel f oracle cfg
                (updState db t.tid (fun x => { x with active := true }))
                t.tid St.ranking rng ix with
            | none =>
              simp [activateBacklogFuel, hfb, hrk, hE] at h
            | some r =>
              obtain ⟨dbE, ixE⟩ := r
              simp only [activateBacklogFuel, hfb, hrk, if_false, if_neg,
                not_false_iff, hE, Option.map_some', Option.some.injEq,
                Prod.mk.injEq] at h
              obtain ⟨h1, h2, h3⟩ := h
              subst h1
              obtain ⟨hEtid, hEcnt, hEframe⟩ :=
                (ihQ (updState db t.tid (fun x => { x with active := true }))
                  t.tid St.ranking rng ix).1 dbE ixE hE
              have htid1 := tids_updState db t.tid
                (fun x => { x with active := true }) (fun _ => rfl)
              have hcnt1 : backlogCount (applyEnter
                  (updState db t.tid (fun x => { x with active := true }))
                  t.tid St.ranking) + 1 ≤
                  backlogCount (updState db t.tid (fun x => { x with active := true })) := by
                apply backlogCount_applyEnter_lt _ _ _ (by decide)
                refine ⟨{ t with active := true }, ?_, rfl, htback⟩
                have heq : ({ t with active := true } : TreeRow) =
                    (fun x => if x.tid = t.tid then { x with active := true } else x) t := by
                  simp
                rw [heq]
                exact List.mem_map_of_mem _ htmem
              rw [backlogCount_setActive] at hcnt1
              refine ⟨hEtid.trans htid1, by omega, ?_⟩
              intro r hr hrstate hnd
              have hrne : r.tid ≠ t.tid := by
                intro hcon
                have : r = t := List.inj_on_of_nodup_map hnd hr htmem hcon
                exact hrstate (this ▸ htback)
              have hr1 : r ∈ updState db t.tid (fun x => { x with active := true }) :=
                mem_updState_of_ne db t.tid _ r hr hrne
              exact hEframe r hr1 hrstate hrne (by rw [htid1]; exact hnd)
          · intro hfuel
            have hE : (enterStateFuel f oracle cfg
                (updState db t.tid (fun x => { x with active := true }))
                t.tid St.ranking rng ix).isSome := by
              apply (ihQ _ t.tid St.ranking rng ix).2.2 (by decide)
              omega
            obtain ⟨⟨dbE, ixE⟩, hEeq⟩ := Option.isSome_iff_exists.mp hE
            simp [activateBacklogFuel, hfb, hrk, hEeq]
    refine ⟨hPmut, ?_⟩
    intro db tid s rng ix
    cases hfr : db.find? (fun t => t.tid = tid) with
    | none =>
      refine ⟨?_, ?_, ?_⟩
      · intro db' ix' h
        simp only [enterStateFuel, hfr, Option.some.injEq, Prod.mk.injEq] at h
        obtain ⟨h1, h2⟩ := h
        subst h1
        refine ⟨tids_applyEnter db tid s, Nat.le_refl _, ?_⟩
        intro r hr hrstate hrne _
        exact mem_updState_of_ne db tid _ r hr hrne
      · intro _ _
        simp [enterStateFuel, hfr]
      · intro _ _
        simp [enterStateFuel, hfr]
    | some row =>
      by_cases hterm : s ∈ TERMINAL_STATES
      · by_cases hra : row.rootExists = true ∧ row.active = true
        · -- the cascade runs
          refine ⟨?_, ?_, ?_⟩
          · intro db' ix' h
            by_cases hrng : rng ix < cfg.p_activate_backlog_tree
            · cases hA : activateBacklogFuel f oracle cfg (applyEnter db tid s)
                  row.lang rng (ix + 1) with
              | none =>
                simp [enterStateFuel, hfr, hterm, hra, hrng, hA] at h
              | some rA =>
                obtain ⟨db2, ix2, act2⟩ := rA
                obtain ⟨hAtid, hAcnt, hAframe⟩ :=
                  (ihP (applyEnter db tid s) row.lang rng (ix + 1)).1 db2 ix2 act2 hA
                have htidA : db2.map TreeRow.tid = db.map TreeRow.tid :=
                  hAtid.trans (tids_applyEnter db tid s)
                by_cases hmin : 0 < cfg.min_active_rankings_per_lang ∧
                    oracle db2 row.lang < cfg.min_active_rankings_per_lang
                · cases hB : activateBacklogFuel f oracle cfg db2 row.lang rng ix2 with
                  | none =>
                    simp [enterStateFuel, hfr, hterm, hra, hrng, hA, hmin, hB] at h
                  | some rB =>
                    obtain ⟨db3, ix3, act3⟩ := rB
                    simp only [enterStateFuel, hfr, hterm, if_true, hra, and_self,
                      hrng, hA, Option.map_some', hmin, hB, Option.some.injEq,
                      Prod.mk.injEq] at h
                    obtain ⟨h1, h2⟩ := h
                    subst h1
                    obtain ⟨hBtid, hBcnt, hBframe⟩ :=
                      (ihP db2 row.lang rng ix2).1 db3 ix3 act3 hB
                    refine ⟨hBtid.trans htidA, by omega, ?_⟩
                    intro r hr hrstate hrne hnd
                    have hr1 : r ∈ applyEnter db tid s :=
                      mem_updState_of_ne db tid _ r hr hrne
                    have hr2 : r ∈ db2 := hAframe r hr1 hrstate
                      (by rw [tids_applyEnter]; exact hnd)
                    exact hBframe r hr2 hrstate (by rw [htidA]; exact hnd)
                · simp only [enterStateFuel, hfr, hterm, if_true, hra, and_self,
                    hrng, hA, Option.map_some', hmin, if_false,
                    Option.some.injEq, Prod.mk.injEq] at h
                  obtain ⟨h1, h2⟩ := h
                  subst h1
                  refine ⟨htidA, by omega, ?_⟩
                  intro r hr hrstate hrne hnd
                  have hr1 : r ∈ applyEnter db tid s :=
                    mem_updState_of_ne db tid _ r hr hrne
                  exact hAframe r hr1 hrstate (by rw [tids_applyEnter]; exact hnd)
            · by_cases hmin : 0 < cfg.min_active_rankings_per_lang ∧
                  oracle (applyEnter db tid s) row.lang < cfg.min_active_rankings_per_lang
              · cases hB : activateBacklogFuel f oracle cfg (applyEnter db tid s)
                    row.lang rng (ix + 1) with
                | none =>
                  simp [enterStateFuel, hfr, hterm, hra, hrng, hmin, hB] at h
                | some rB =>
                  obtain ⟨db3, ix3, act3⟩ := rB
                  simp only [enterStateFuel, hfr, hterm, if_true, hra, and_self,
                    hrng, if_false, hmin, hB, Option.map_some',
                    Option.some.injEq, Prod.mk.injEq] at h
                  obtain ⟨h1, h2⟩ := h
                  subst h1
                  obtain ⟨hBtid, hBcnt, hBframe⟩ :=
                    (ihP (applyEnter db tid s) row.lang rng (ix + 1)).1 db3 ix3 act3 hB
                  refine ⟨hBtid.trans (tids_applyEnter db tid s), by omega, ?_⟩
                  intro r hr hrstate hrne hnd
                  have hr1 : r ∈ applyEnter db tid s :=
                    mem_updState_of_ne db tid _ r hr hrne
                  exact hBframe r hr1 hrstate (by rw [tids_applyEnter]; exact hnd)
              · simp only [enterStateFuel, hfr, hterm, if_true, hra, and_self,
                  hrng, if_false, hmin, Option.some.injEq, Prod.mk.injEq] at h
                obtain ⟨h1, h2⟩ := h
                subst h1
                refine ⟨tids_applyEnter db tid s, Nat.le_refl _, ?_⟩
                intro r hr hrstate hrne _
                exact mem_updState_of_ne db tid _ r hr hrne
          · intro _ hfuel
            by_cases hrng : rng ix < cfg.p_activate_backlog_tree
            · have hA : (activateBacklogFuel f oracle cfg (applyEnter db tid s)
                  row.lang rng (ix + 1)).isSome := by
                apply (ihP _ row.lang rng (ix + 1)).2
                omega
              obtain ⟨⟨db2, ix2, act2⟩, hAeq⟩ := Option.isSome_iff_exists.mp hA
              obtain ⟨hAtid, hAcnt, hAframe⟩ :=
                (ihP (applyEnter db tid s) row.lang rng (ix + 1)).1 db2 ix2 act2 hAeq
              by_cases hmin : 0 < cfg.min_active_rankings_per_lang ∧
                  oracle db2 row.lang < cfg.min_active_rankings_per_lang
              · have hB : (activateBacklogFuel f oracle cfg db2 row.lang rng ix2).isSome := by
                  apply (ihP db2 row.lang rng ix2).2
                  omega
                obtain ⟨⟨db3, ix3, act3⟩, hBeq⟩ := Option.isSome_iff_exists.mp hB
                simp [enterStateFuel, hfr, hterm, hra, hrng, hAeq, hmin, hBeq]
              · simp [enterStateFuel, hfr, hterm, hra, hrng, hAeq, hmin]
            · by_cases hmin : 0 < cfg.min_active_rankings_per_lang ∧
                  oracle (applyEnter db tid s) row.lang < cfg.min_active_rankings_per_lang
              · have hB : (activateBacklogFuel f oracle cfg (applyEnter db tid s)
                    row.lang rng (ix + 1)).isSome := by
                  apply (ihP _ row.lang rng (ix + 1)).2
                  omega
                obtain ⟨⟨db3, ix3, act3⟩, hBeq⟩ := Option.isSome_iff_exists.mp hB
                simp [enterStateFuel, hfr, hterm, hra, hrng, hmin, hBeq]
              · simp [enterStateFuel, hfr, hterm, hra, hrng, hmin]
          · intro hnterm _
            exact absurd hterm hnterm
        · -- terminal but no cascade
          refine ⟨?_, ?_, ?_⟩
          · intro db' ix' h
            simp only [enterStateFuel, hfr, hterm, if_true, hra, if_false,
              Option.some.injEq, Prod.mk.injEq] at h
            obtain ⟨h1, h2⟩ := h
            subst h1
            refine ⟨tids_applyEnter db tid s, Nat.le_refl _, ?_⟩
            intro r hr hrstate hrne _
            exact mem_updState_of_ne db tid _ r hr hrne
          · intro _ _
            simp [enterStateFuel, hfr, hterm, hra]
          · intro hnterm _
            exact absurd hterm hnterm
      · -- non-terminal target
        refine ⟨?_, ?_, ?_⟩
        · intro db' ix' h
          simp only [enterStateFuel, hfr, hterm, if_false,
            Option.some.injEq, Prod.mk.injEq] at h
          obtain ⟨h1, h2⟩ := h
          subst h1
          refine ⟨tids_applyEnter db tid s, Nat.le_refl _, ?_⟩
          intro r hr hrstate hrne _
          exact mem_updState_of_ne db tid _ r hr hrne
        · intro hterm2 _
          exact absurd hterm2 hterm
        · intro _ _
          simp [enterStateFuel, hfr, hterm]

theorem enterStateFuel_succ (f : Nat) (oracle : List TreeRow → Nat → Nat)
    (cfg : BacklogCfg) (db : List TreeRow) (tid : Nat) (s : St)
    (rng : Nat → ℚ) (ix : Nat) :
    enterStateFuel (f + 1) oracle cfg db tid s rng ix =
      match db.find? (fun t => t.tid = tid) with
      | none => some (applyEnter db tid s, ix)
      | some row =>
        if s ∈ TERMINAL_STATES then
          if row.rootExists = true ∧ row.active = true then
            match (if rng ix < cfg.p_activate_backlog_tree then
                (activateBacklogFuel f oracle cfg (applyEnter db tid s)
                  row.lang rng (ix + 1)).map (fun r => (r.1, r.2.1))
              else some (applyEnter db tid s, ix + 1)) with
            | none => none
            | some (db2, ix2) =>
              if 0 < cfg.min_active_rankings_per_lang ∧
                  oracle db2 row.lang < cfg.min_active_rankings_per_lang then
                (activateBacklogFuel f oracle cfg db2 row.lang rng ix2).map
                  (fun r => (r.1, r.2.1))
              else some (db2, ix2)
          else some (applyEnter db tid s, ix)
        else some (applyEnter db tid s, ix) := rfl

theorem activateBacklogFuel_succ (f : Nat) (oracle : List TreeRow → Nat → Nat)
    (cfg : BacklogCfg) (db : List TreeRow) (lang : Nat)
    (rng : Nat → ℚ) (ix : Nat) :
    activateBacklogFuel (f + 1) oracle cfg db lang rng ix =
      match findBacklog db lang with
      | none => some (db, ix, none)
      | some t =>
        if t.rankableParents = 0 then
          match enterStateFuel f oracle cfg db t.tid St.aborted_low_grade rng ix with
          | none => none
          | some (db', ix') => activateBacklogFuel f oracle cfg db' lang rng ix'
        else
          (enterStateFuel f oracle cfg
            (updState db t.tid (fun x => { x with active := true }))
            t.tid St.ranking rng ix).map (fun r => (r.1, r.2, some t.tid)) := rfl

theorem mem_setActive_self (db : List TreeRow) (t : TreeRow) (ht : t ∈ db) :
    ({ t with active := true } : TreeRow) ∈
      updState db t.tid (fun x => { x with active := true }) := by
  have he : ({ t with active := true } : TreeRow) =
      (fun x => if x.tid = t.tid then { x with active := true } else x) t := by
    simp
  rw [he]
  exact List.mem_map_of_mem _ ht

theorem mem_applyEnter_self (db : List TreeRow) (t : TreeRow) (ht : t ∈ db)
    (s : St) :
    ({ t with
        state := s,
        active := if s ∈ TERMINAL_STATES then false else t.active } : TreeRow) ∈
      applyEnter db t.tid s := by
  have he : ({ t with
      state := s,
      active := if s ∈ TERMINAL_STATES then false else t.active } : TreeRow) =
      (fun x => if x.tid = t.tid then
        { x with
          state := s,
          active := if s ∈ TERMINAL_STATES then false else x.active }
        else x) t := by
    simp
  rw [he]
  exact List.mem_map_of_mem _ ht

/-! ## Backlog activation termination: claim C10 -/

/-- Claim C10: `activate_backlog_tree` terminates on every finite database —
fuel `2 * backlogCount + 1` always suffices for the loop (first conjunct),
because an iteration that does not return moves the selected backlog tree to
the terminal ABORTED_LOW_GRADE state, strictly decreasing the number of
BACKLOG_RANKING trees (second conjunct). -/
theorem claim_C10 (oracle : List TreeRow → Nat → Nat) (cfg : BacklogCfg)
    (db : List TreeRow) (lang : Nat) (rng : Nat → ℚ) (ix : Nat) :
    (activateBacklogFuel (2 * backlogCount db + 1) oracle cfg db lang rng ix).isSome ∧
    (∀ t, findBacklog db lang = some t → t.rankableParents = 0 →
      backlogCount (applyEnter db t.tid St.aborted_low_grade) < backlogCount db) := by
  constructor
  · exact ((backlog_master (2 * backlogCount db + 1) oracle cfg).1 db lang rng ix).2
      (Nat.le_refl _)
  · intro t hbt hrk
    obtain ⟨htmem, htback, _, _⟩ := findBacklog_spec db lang t hbt
    have := backlogCount_applyEnter_lt db t.tid St.aborted_low_grade (by decide)
      ⟨t, htmem, rfl, htback⟩
    omega

/-- Witness for C10: a single backlog tree with no rankable parents; the
loop terminates within the stated fuel and the abort step decreases the
backlog count. -/
theorem claim_C10_witness :
    (activateBacklogFuel
        (2 * backlogCount [⟨2, St.backlog_ranking, false, 7, true, 0⟩] + 1)
        (fun _ _ => 0) ⟨1, 0⟩ [⟨2, St.backlog_ranking, false, 7, true, 0⟩]
        7 (fun _ => 1/2) 0).isSome ∧
    backlogCount (applyEnter [⟨2, St.backlog_ranking, false, 7, true, 0⟩]
        2 St.aborted_low_grade) <
      backlogCount [⟨2, St.backlog_ranking, false, 7, true, 0⟩] := by
  constructor
  · exact (claim_C10 (fun _ _ => 0) ⟨1, 0⟩
      [⟨2, St.backlog_ranking, false, 7, true, 0⟩] 7 (fun _ => 1/2) 0).1
  · exact (claim_C10 (fun _ _ => 0) ⟨1, 0⟩
      [⟨2, St.backlog_ranking, false, 7, true, 0⟩] 7 (fun _ => 1/2) 0).2
      ⟨2, St.backlog_ranking, false, 7, true, 0⟩ (by decide) rfl

/-- Claim C7: when a tree enters a terminal state while it was active and its
root exists, then (A) if the `p_activate_backlog_tree` draw fires and the
selected backlog tree of the finished tree's language has rankable parents,
that tree ends up in RANKING with `active = true`; (B) if the selected
backlog tree has zero rankable parents it is moved to the terminal
ABORTED_LOW_GRADE state (and stays inactive) instead of being activated;
(C) even without the probability draw, if the live count of incomplete
rankings for the language is below `min_active_rankings_per_lang`, a backlog
tree with rankable parents is activated into RANKING. -/
theorem claim_C7 (oracle : List TreeRow → Nat → Nat) (cfg : BacklogCfg)
    (db : List TreeRow) (tid : Nat) (s : St) (rng : Nat → ℚ) (ix fuel : Nat)
    (row : TreeRow)
    (hfr : db.find? (fun t => t.tid = tid) = some row)
    (hterm : s ∈ TERMINAL_STATES)
    (hroot : row.rootExists = true)
    (hact : row.active = true)
    (hnd : (db.map TreeRow.tid).Nodup) :
    (∀ t, rng ix < cfg.p_activate_backlog_tree →
      cfg.min_active_rankings_per_lang = 0 →
      findBacklog (applyEnter db tid s) row.lang = some t →
      t.rankableParents ≠ 0 → 3 ≤ fuel →
      ∃ db' ix', enterStateFuel fuel oracle cfg db tid s rng ix = some (db', ix') ∧
        ∃ r ∈ db', r.tid = t.tid ∧ r.state = St.ranking ∧ r.active = true) ∧
    (∀ t, rng ix < cfg.p_activate_backlog_tree →
      findBacklog (applyEnter db tid s) row.lang = some t →
      t.rankableParents = 0 → t.active = false →
      2 * backlogCount (applyEnter db tid s) + 2 ≤ fuel →
      ∃ db' ix', enterStateFuel fuel oracle cfg db tid s rng ix = some (db', ix') ∧
        ∃ r ∈ db', r.tid = t.tid ∧ r.state = St.aborted_low_grade ∧
          r.active = false) ∧
    (∀ t, ¬ rng ix < cfg.p_activate_backlog_tree →
      0 < cfg.min_active_rankings_per_lang →
      oracle (applyEnter db tid s) row.lang < cfg.min_active_rankings_per_lang →
      findBacklog (applyEnter db tid s) row.lang = some t →
      t.rankableParents ≠ 0 → 3 ≤ fuel →
      ∃ db' ix', enterStateFuel fuel oracle cfg db tid s rng ix = some (db', ix') ∧
        ∃ r ∈ db', r.tid = t.tid ∧ r.state = St.ranking ∧ r.active = true) := by
  refine ⟨?_, ?_, ?_⟩
  · -- scenario A: probability draw fires, tree activated
    intro t hrng hmin0 hbt hrk hfuel
    obtain ⟨htmem1, htback, htlang, htroot⟩ := findBacklog_spec _ _ _ hbt
    obtain ⟨F, rfl⟩ : ∃ F, fuel = F + 1 + 1 + 1 := ⟨fuel - 3, by omega⟩
    have henter : enterStateFuel (F + 1) oracle cfg
        (updState (applyEnter db tid s) t.tid (fun x => { x with active := true }))
        t.tid St.ranking rng (ix + 1) =
        some (applyEnter
          (updState (applyEnter db tid s) t.tid (fun x => { x with active := true }))
          t.tid St.ranking, ix + 1) := by
      rw [enterStateFuel_succ]
      cases hfr2 : (updState (applyEnter db tid s) t.tid
          (fun x => { x with active := true })).find? (fun x => x.tid = t.tid) with
      | none => simp
      | some row2 => simp [show St.ranking ∉ TERMINAL_STATES from by decide]
    have hA : activateBacklogFuel (F + 1 + 1) oracle cfg (applyEnter db tid s)
        row.lang rng (ix + 1) =
        some (applyEnter
          (updState (applyEnter db tid s) t.tid (fun x => { x with active := true }))
          t.tid St.ranking, ix + 1, some t.tid) := by
      rw [activateBacklogFuel_succ]
      simp only [hbt, if_neg hrk, henter, Option.map_some']
    have hfinal : enterStateFuel (F + 1 + 1 + 1) oracle cfg db tid s rng ix =
        some (applyEnter
          (updState (applyEnter db tid s) t.tid (fun x => { x with active := true }))
          t.tid St.ranking, ix + 1) := by
      rw [enterStateFuel_succ]
      simp only [hfr, hterm, hroot, hact, eq_self_iff_true, and_self, if_true,
        if_pos hrng, hA, Option.map_some', hmin0, Nat.lt_irrefl, false_and,
        if_false]
    have h1 := mem_setActive_self (applyEnter db tid s) t htmem1
    have h2 := mem_applyEnter_self _ _ h1 St.ranking
    exact ⟨_, _, hfinal, _, h2, rfl, rfl, by simp [TERMINAL_STATES]⟩
  · -- scenario B: selected backlog tree has no rankable parents, aborted
    intro t hrng hbt hrk0 htact hfuel
    obtain ⟨htmem1, htback, htlang, htroot⟩ := findBacklog_spec _ _ _ hbt
    have hB1 := backlogCount_pos _ t htmem1 htback
    obtain ⟨F, rfl⟩ : ∃ F, fuel = F + 1 + 1 + 1 := ⟨fuel - 3, by omega⟩
    have hnd1 : ((applyEnter db tid s).map TreeRow.tid).Nodup := by
      rw [tids_applyEnter]; exact hnd
    have hfind1 : (applyEnter db tid s).find? (fun x => x.tid = t.tid) = some t :=
      find_tid_of_nodup _ hnd1 t htmem1
    have henter2 : enterStateFuel (F + 1) oracle cfg (applyEnter db tid s)
        t.tid St.aborted_low_grade rng (ix + 1) =
        some (applyEnter (applyEnter db tid s) t.tid St.aborted_low_grade,
          ix + 1) := by
      rw [enterStateFuel_succ]
      simp [hfind1, htact]
    have hBA := backlogCount_applyEnter_lt (applyEnter db tid s) t.tid
      St.aborted_low_grade (by decide) ⟨t, htmem1, rfl, htback⟩
    have hfuel2 : 2 * backlogCount
        (applyEnter (applyEnter db tid s) t.tid St.aborted_low_grade) + 1 ≤
        F + 1 := by omega
    have hrec := ((backlog_master (F + 1) oracle cfg).1
      (applyEnter (applyEnter db tid s) t.tid St.aborted_low_grade)
      row.lang rng (ix + 1)).2 hfuel2
    obtain ⟨res, hres⟩ := Option.isSome_iff_exists.mp hrec
    obtain ⟨db2, ix2, act2⟩ := res
    obtain ⟨htids2, hcnt2, hfr2⟩ := ((backlog_master (F + 1) oracle cfg).1
      (applyEnter (applyEnter db tid s) t.tid St.aborted_low_grade)
      row.lang rng (ix + 1)).1 db2 ix2 act2 hres
    have hA : activateBacklogFuel (F + 1 + 1) oracle cfg (applyEnter db tid s)
        row.lang rng (ix + 1) = some (db2, ix2, act2) := by
      rw [activateBacklogFuel_succ]
      simp only [hbt, if_pos hrk0, henter2, hres]
    have hstep : enterStateFuel (F + 1 + 1 + 1) oracle cfg db tid s rng ix =
        (if 0 < cfg.min_active_rankings_per_lang ∧
            oracle db2 row.lang < cfg.min_active_rankings_per_lang then
          (activateBacklogFuel (F + 1 + 1) oracle cfg db2 row.lang rng ix2).map
            (fun r => (r.1, r.2.1))
        else some (db2, ix2)) := by
      rw [enterStateFuel_succ]
      simp only [hfr, hterm, hroot, hact, eq_self_iff_true, and_self, if_true,
        if_pos hrng, hA, Option.map_some']
    have habort0 := mem_applyEnter_self (applyEnter db tid s) t htmem1
      St.aborted_low_grade
    have hactTerm : (if St.aborted_low_grade ∈ TERMINAL_STATES then false
        else t.active) = false := by simp [TERMINAL_STATES]
    have hndA : ((applyEnter (applyEnter db tid s) t.tid
        St.aborted_low_grade).map TreeRow.tid).Nodup := by
      rw [tids_applyEnter]; exact hnd1
    have habort2 : ({ t with
        state := St.aborted_low_grade,
        active := if St.aborted_low_grade ∈ TERMINAL_STATES then false
          else t.active } : TreeRow) ∈ db2 :=
      hfr2 _ habort0 (by simp) hndA
    by_cases hmin : 0 < cfg.min_active_rankings_per_lang ∧
        oracle db2 row.lang < cfg.min_active_rankings_per_lang
    · have hfuel3 : 2 * backlogCount db2 + 1 ≤ F + 1 + 1 := by omega
      have hrec3 := ((backlog_master (F + 1 + 1) oracle cfg).1
        db2 row.lang rng ix2).2 hfuel3
      obtain ⟨res3, hres3⟩ := Option.isSome_iff_exists.mp hrec3
      obtain ⟨db3, ix3, act3⟩ := res3
      obtain ⟨htids3, hcnt3, hfr3⟩ := ((backlog_master (F + 1 + 1) oracle cfg).1
        db2 row.lang rng ix2).1 db3 ix3 act3 hres3
      have hnd2 : (db2.map TreeRow.tid).Nodup := by
        rw [htids2]; exact hndA
      have habort3 : ({ t with
          state := St.aborted_low_grade,
          active := if St.aborted_low_grade ∈ TERMINAL_STATES then false
            else t.active } : TreeRow) ∈ db3 :=
        hfr3 _ habort2 (by simp) hnd2
      refine ⟨db3, ix3, ?_, _, habort3, rfl, rfl, hactTerm⟩
      rw [hstep, if_pos hmin, hres3, Option.map_some']
    · refine ⟨db2, ix2, ?_, _, habort2, rfl, rfl, hactTerm⟩
      rw [hstep, if_neg hmin]
  · -- scenario C: min-rankings top-up activates a backlog tree
    intro t hrng hminpos horacle hbt hrk hfuel
    obtain ⟨htmem1, htback, htlang, htroot⟩ := findBacklog_spec _ _ _ hbt
    obtain ⟨F, rfl⟩ : ∃ F, fuel = F + 1 + 1 + 1 := ⟨fuel - 3, by omega⟩
    have henter : enterStateFuel (F + 1) oracle cfg
        (updState (applyEnter db tid s) t.tid (fun x => { x with active := true }))
        t.tid St.ranking rng (ix + 1) =
        some (applyEnter
          (updState (applyEnter db tid s) t.tid (fun x => { x with active := true }))
          t.tid St.ranking, ix + 1) := by
      rw [enterStateFuel_succ]
      cases hfr2 : (updState (applyEnter db tid s) t.tid
          (fun x => { x with active := true })).find? (fun x => x.tid = t.tid) with
      | none => simp
      | some row2 => simp [show St.ranking ∉ TERMINAL_STATES from by decide]
    have hA : activateBacklogFuel (F + 1 + 1) oracle cfg (applyEnter db tid s)
        row.lang rng (ix + 1) =
        some (applyEnter
          (updState (applyEnter db tid s) t.tid (fun x => { x with active := true }))
          t.tid St.ranking, ix + 1, some t.tid) := by
      rw [activateBacklogFuel_succ]
      simp only [hbt, if_neg hrk, henter, Option.map_some']
    have hfinal : enterStateFuel (F + 1 + 1 + 1) oracle cfg db tid s rng ix =
        some (applyEnter
          (updState (applyEnter db tid s) t.tid (fun x => { x with active := true }))
          t.tid St.ranking, ix + 1) := by
      rw [enterStateFuel_succ]
      simp only [hfr, hterm, hroot, hact, eq_self_iff_true, and_self, if_true,
        if_neg hrng, hA, Option.map_some', if_pos (And.intro hminpos horacle)]
    have h1 := mem_setActive_self (applyEnter db tid s) t htmem1
    have h2 := mem_applyEnter_self _ _ h1 St.ranking
    exact ⟨_, _, hfinal, _, h2, rfl, rfl, by simp [TERMINAL_STATES]⟩

/-- Witness for C7 (scenario A): a finished tree of language 7 enters
READY_FOR_EXPORT; the probability draw fires and the backlog tree 2 of the
same language, which has rankable parents, is activated into RANKING. -/
theorem claim_C7_witness :
    ∃ db' ix',
      enterStateFuel 3 (fun _ _ => 0) ⟨1, 0⟩
        [⟨1, St.ready_for_scoring, true, 7, true, 2⟩,
         ⟨2, St.backlog_ranking, false, 7, true, 3⟩]
        1 St.ready_for_export (fun _ => 0) 0 = some (db', ix') ∧
      ∃ r ∈ db', r.tid = 2 ∧ r.state = St.ranking ∧ r.active = true :=
  (claim_C7 (fun _ _ => 0) ⟨1, 0⟩
      [⟨1, St.ready_for_scoring, true, 7, true, 2⟩,
       ⟨2, St.backlog_ranking, false, 7, true, 3⟩]
      1 St.ready_for_export (fun _ => 0) 0 3
      ⟨1, St.ready_for_scoring, true, 7, true, 2⟩
      (by decide) (by decide) rfl rfl (by decide)).1
    ⟨2, St.backlog_ranking, false, 7, true, 3⟩
    zero_lt_one rfl (by decide) (by decide) (by decide)

end TreeManagerSpec
